import Mathlib

/-!
Verification of the footprint/peak and record/table subsystems of the afw
library, as a shallow embedding in Lean.  Pixel runs (spans), footprints
(`Bootprint`), peak catalogs, the schema-driven record store (`Key`,
`BaseRecord.assign`, record initialization), id factories and the heavy
footprint dot product are translated from the C++ sources; theorems settle
the specification claims about them.
-/

namespace AfwProof

/-- A single run of pixels: row `y` and inclusive column range `x0..x1`
(mirrors `lsst::afw::geom::Span`). -/
structure Span where
  y : Int
  x0 : Int
  x1 : Int
deriving DecidableEq

/-- Width of a span: `Span::getWidth() = x1 - x0 + 1`. -/
def Span.width (s : Span) : Int := s.x1 - s.x0 + 1

/-- An integer bounding box (`lsst::afw::geom::Box2I`), stored as inclusive
minimum/maximum corners. -/
structure Box2I where
  minX : Int
  minY : Int
  maxX : Int
  maxY : Int
deriving DecidableEq

/-- Point membership for a span list.  Modelled from the spec: the `SpanSet`
implementation is a collaborator not under `src/`; per the span data model a
point is contained iff some span has the point's row and its column range
covers the point's column. -/
def SpanSet.containsPt (ss : List Span) (x y : Int) : Bool :=
  ss.any (fun s => s.y == y && decide (s.x0 ≤ x) && decide (x ≤ s.x1))

/-- A peak record (`lsst::afw::detection::PeakRecord`): integer position
`(ix, iy)`, floating-point position `(fx, fy)`, and the peak value.  The
floating-point quantities are modelled as exact integers; the claims under
verification do not depend on rounding. -/
structure PeakRec where
  ix : Int
  iy : Int
  fx : Int
  fy : Int
  peakValue : Int
deriving DecidableEq

/-- The footprint class of `src/src/detection/Bootprint.cc`: a span set, a
peak catalog and a parent region. -/
structure Bootprint where
  spans : List Span
  peaks : List PeakRec
  region : Box2I
deriving DecidableEq

/-- Translation of `Bootprint::addPeak(fx, fy, height)`: appends a new peak
record whose `ix, iy, fx, fy` are all set from `(fx, fy)` (the C++ narrows
float to int for `setIx`/`setIy`; in the integer model that cast is the
identity) and whose peak value is `height`. -/
def Bootprint.addPeak (f : Bootprint) (fx fy : Int) (height : Int) : Bootprint :=
  { f with peaks := f.peaks ++ [⟨fx, fy, fx, fy, height⟩] }

/-- Translation of `Bootprint::removeOrphanPeaks()`: erases every peak whose
integer position is not contained in the current span set.  The C++
erase-inside-iteration loop (erase, step back, advance) visits each peak once
and keeps order, i.e. it is an order-preserving filter. -/
def Bootprint.removeOrphanPeaks (f : Bootprint) : Bootprint :=
  { f with peaks := f.peaks.filter (fun p => SpanSet.containsPt f.spans p.ix p.iy) }

/-- Modelled from the spec: `SpanSet::clippedTo(box)` (the SpanSet
implementation is not under `src/`) — intersects every span with the box;
spans whose intersection is empty vanish. -/
def SpanSet.clippedTo (ss : List Span) (b : Box2I) : List Span :=
  ss.filterMap (fun s =>
    if b.minY ≤ s.y ∧ s.y ≤ b.maxY then
      let nx0 := max s.x0 b.minX
      let nx1 := min s.x1 b.maxX
      if nx0 ≤ nx1 then some ⟨s.y, nx0, nx1⟩ else none
    else none)

/-- Translation of `Bootprint::clipTo(box)`: replaces the spans with the
clipped span set, then removes orphan peaks. -/
def Bootprint.clipTo (f : Bootprint) (box : Box2I) : Bootprint :=
  Bootprint.removeOrphanPeaks { f with spans := SpanSet.clippedTo f.spans box }

/-- Translation of `Bootprint::erode`: the eroded span set is produced by the
SpanSet collaborator (`getSpans()->erode(...)`, not under `src/`) and enters
as the parameter `shrunk`; the method installs it and removes orphan peaks. -/
def Bootprint.erode (f : Bootprint) (shrunk : List Span) : Bootprint :=
  Bootprint.removeOrphanPeaks { f with spans := shrunk }

/-- Translation of `Bootprint::dilate`: installs the dilated span set
(collaborator result, passed as a parameter); peaks are not touched. -/
def Bootprint.dilate (f : Bootprint) (grown : List Span) : Bootprint :=
  { f with spans := grown }

/-- A two-dimensional point for transformed peak positions
(`lsst::afw::geom::Point2D`, modelled over the integers). -/
structure PointD where
  x : Int
  y : Int
deriving DecidableEq

/-- Translation of `Bootprint::transform(source, target, region, doClip)`.
The coordinate transform built from the two WCS objects and the transformed
span set are collaborator results and enter as parameters `T` and
`transformedSpans`.  The peak loop reproduces lines 94–98 of `Bootprint.cc`:
the point handed to the transform is built as
`geom::Point2D(peak.getFx(), peak.getFx())` — the x coordinate is used for
both components — and the transformed point's coordinates feed `addPeak`.
If `doClip`, the new footprint is clipped to `region`. -/
def Bootprint.transform (f : Bootprint) (T : PointD → PointD)
    (transformedSpans : List Span) (region : Box2I) (doClip : Bool) : Bootprint :=
  let newBootprint : Bootprint := { spans := transformedSpans, peaks := [], region := region }
  let newBootprint := f.peaks.foldl
    (fun acc peak =>
      let newPoint := T ⟨peak.fx, peak.fx⟩
      acc.addPeak newPoint.x newPoint.y peak.peakValue) newBootprint
  if doClip then newBootprint.clipTo region else newBootprint

/-- One row of a persisted legacy span catalog: fields `y, x0, x1`. -/
structure SpanRow where
  y : Int
  x0 : Int
  x1 : Int
deriving DecidableEq

/-- Translation of `Bootprint::readSpanSet` (legacy three-field branch, lines
228–237 of `Bootprint.cc`): one span per catalog row, and the resulting
footprint is built with a default-constructed — empty — peak catalog.  (The
single-field branch fetches the span set from the archive, a collaborator,
and likewise leaves the peak catalog empty.)  A default `Box2I` is empty. -/
def Bootprint.readSpanSet (catalog : List SpanRow) : Bootprint :=
  { spans := catalog.map (fun r => ⟨r.y, r.x0, r.x1⟩),
    peaks := [],
    region := ⟨0, 0, -1, -1⟩ }

/-- Translation of `Bootprint::readPeaks` (new-format branch, lines 264–269).
The C++ binds `auto peaks = loadedBootprint.getPeaks();` — `auto` deduces a
catalog value, so `peaks` is a copy — then reassigns that copy to a fresh
catalog and fills it with one assigned record per input row.  The local copy
is discarded when the function returns; the loaded footprint itself is never
written to. -/
def Bootprint.readPeaks (peakCat : List PeakRec) (loadedBootprint : Bootprint) : Bootprint :=
  let peaks := loadedBootprint.peaks
  let peaks := peakCat.foldl (fun acc row => acc ++ [row]) []
  let _ := peaks
  loadedBootprint

/-- Translation of `BootprintFactory::read` (lines 179–189 of
`Bootprint.cc`): read the span catalog into a footprint, run `readPeaks` on
the peak catalog, return the loaded footprint. -/
def BootprintFactory.read (spanCatalog : List SpanRow) (peakCatalog : List PeakRec) :
    Bootprint :=
  let loadedBootprint := Bootprint.readSpanSet spanCatalog
  Bootprint.readPeaks peakCatalog loadedBootprint

/-- Claim C1 (code bug): `Bootprint::transform` hands the transform the point
`(fx, fx)` instead of `(fx, fy)` (line 96 of `Bootprint.cc`), so even at the
identity transform the peak with floating position `(1, 2)` is re-added at
`(1, 1)`, while the claim requires the transform of `(1, 2)`, namely `(1, 2)`
itself.  The first conjunct evaluates the code at this failing input; the
second states that the produced position differs from the claimed one. -/
theorem C1_transform_peak_uses_fx_twice :
    ((Bootprint.transform
        ⟨[⟨2, 0, 5⟩], [⟨1, 2, 1, 2, 7⟩], ⟨0, 0, 9, 9⟩⟩
        (fun p => p) [⟨2, 0, 5⟩] ⟨0, 0, 9, 9⟩ false).peaks.map
      (fun p => (p.fx, p.fy))) = [(1, 1)] ∧ ((1, 1) : Int × Int) ≠ (1, 2) := by
  exact ⟨rfl, by decide⟩

/-- Claim C2 (code bug): reading a persisted footprint back through the
factory leaves the loaded footprint's peak catalog empty, because
`readPeaks` fills a by-value copy of the peak catalog and discards it.  Here
the persisted peak catalog has one row, yet the loaded footprint has no
peaks. -/
theorem C2_factory_read_drops_peaks :
    (BootprintFactory.read [⟨2, 0, 5⟩] [⟨1, 2, 1, 2, 7⟩]).peaks = [] ∧
      ([⟨1, 2, 1, 2, 7⟩] : List PeakRec).length = 1 := by
  exact ⟨rfl, rfl⟩

/-- Claim C8: after `clipTo` or `erode`, every peak remaining in the peak
catalog has its integer position contained in the resulting spans, and
exactly the peaks whose positions are contained survive (orphans are
removed); `dilate` performs no peak removal. -/
theorem C8_orphan_peaks_pruned (f : Bootprint) (box : Box2I) (shrunk grown : List Span) :
    (∀ p ∈ (f.clipTo box).peaks,
        SpanSet.containsPt (f.clipTo box).spans p.ix p.iy = true) ∧
    (∀ p ∈ f.peaks,
        SpanSet.containsPt (SpanSet.clippedTo f.spans box) p.ix p.iy = true →
          p ∈ (f.clipTo box).peaks) ∧
    (∀ p ∈ (f.erode shrunk).peaks,
        SpanSet.containsPt (f.erode shrunk).spans p.ix p.iy = true) ∧
    (∀ p ∈ f.peaks,
        SpanSet.containsPt shrunk p.ix p.iy = true → p ∈ (f.erode shrunk).peaks) ∧
    (f.dilate grown).peaks = f.peaks := by
  refine ⟨?_, ?_, ?_, ?_, rfl⟩
  · intro p hp
    simp only [Bootprint.clipTo, Bootprint.removeOrphanPeaks, List.mem_filter] at hp ⊢
    exact hp.2
  · intro p hp hc
    simp only [Bootprint.clipTo, Bootprint.removeOrphanPeaks, List.mem_filter]
    exact ⟨hp, hc⟩
  · intro p hp
    simp only [Bootprint.erode, Bootprint.removeOrphanPeaks, List.mem_filter] at hp ⊢
    exact hp.2
  · intro p hp hc
    simp only [Bootprint.erode, Bootprint.removeOrphanPeaks, List.mem_filter]
    exact ⟨hp, hc⟩

/-- Witness for C8 at a concrete input: clipping the footprint with spans
`{row 2, columns 0..5}` and peaks at `(1, 2)` and `(8, 2)` to the box
`[0,4] × [0,4]` keeps the peak at `(1, 2)`, whose position is contained in
the clipped spans, and the erode/dilate parts hold at the same inputs. -/
theorem C8_orphan_peaks_pruned_witness :
    SpanSet.containsPt
      ((Bootprint.clipTo ⟨[⟨2, 0, 5⟩], [⟨1, 2, 1, 2, 7⟩, ⟨8, 2, 8, 2, 3⟩], ⟨0, 0, 9, 9⟩⟩
        ⟨0, 0, 4, 4⟩).spans) 1 2 = true ∧
    (⟨1, 2, 1, 2, 7⟩ : PeakRec) ∈
      (Bootprint.dilate ⟨[⟨2, 0, 5⟩], [⟨1, 2, 1, 2, 7⟩], ⟨0, 0, 9, 9⟩⟩ [⟨0, 0, 1⟩]).peaks := by
  constructor
  · exact (C8_orphan_peaks_pruned ⟨[⟨2, 0, 5⟩], [⟨1, 2, 1, 2, 7⟩, ⟨8, 2, 8, 2, 3⟩], ⟨0, 0, 9, 9⟩⟩
      ⟨0, 0, 4, 4⟩ [] []).1 ⟨1, 2, 1, 2, 7⟩ (by decide)
  · have h := (C8_orphan_peaks_pruned ⟨[⟨2, 0, 5⟩], [⟨1, 2, 1, 2, 7⟩], ⟨0, 0, 9, 9⟩⟩
      ⟨0, 0, 4, 4⟩ [] [⟨0, 0, 1⟩]).2.2.2.2
    rw [h]
    decide

/-! Key model (`src/include/lsst/afw/table/Key.h`). -/

/-- The C++ `Key` type family: a non-Flag `Key<T>` stores a byte offset and
its `FieldBase<T>`, which yields the element count; `Key<Flag>` stores the
offset of the shared integer word and the bit index.  The field type
parameter `T` is modelled as a tag string.  Note that a key holds no
reference to any Schema. -/
inductive AKey where
  | typed (tag : String) (offset : Int) (elementCount : Nat)
  | flagK (offset : Int) (bit : Nat)
deriving DecidableEq

/-- Translation of the `Key` equality operators (Key.h, lines 66–78 for
`Key<T>` and 153–163 for `Key<Flag>`): the cross-type overloads return
`false` unconditionally; same-type keys compare offset and element count;
Flag keys compare offset and bit index. -/
def AKey.eq : AKey → AKey → Bool
  | .typed t1 o1 c1, .typed t2 o2 c2 =>
      if t1 = t2 then decide (o1 = o2) && decide (c1 = c2) else false
  | .flagK o1 b1, .flagK o2 b2 => decide (o1 = o2) && decide (b1 = b2)
  | .typed _ _ _, .flagK _ _ => false
  | .flagK _ _, .typed _ _ _ => false

/-- Claim C3: key equality is purely structural.  Two keys of one
non-Flag field type are equal iff they have the same offset and the same
element count; two Flag keys are equal iff they have the same offset and bit
index; keys of different field types are never equal.  Since an `AKey`
carries no schema component, equality is independent of which Schema each
key was obtained from. -/
theorem C3_key_equality_structural :
    (∀ (t : String) (o1 : Int) (c1 : Nat) (o2 : Int) (c2 : Nat),
        AKey.eq (.typed t o1 c1) (.typed t o2 c2) = true ↔ o1 = o2 ∧ c1 = c2) ∧
    (∀ (o1 : Int) (b1 : Nat) (o2 : Int) (b2 : Nat),
        AKey.eq (.flagK o1 b1) (.flagK o2 b2) = true ↔ o1 = o2 ∧ b1 = b2) ∧
    (∀ (t1 : String) (o1 : Int) (c1 : Nat) (t2 : String) (o2 : Int) (c2 : Nat),
        t1 ≠ t2 → AKey.eq (.typed t1 o1 c1) (.typed t2 o2 c2) = false) ∧
    (∀ (t : String) (o : Int) (c : Nat) (o2 : Int) (b2 : Nat),
        AKey.eq (.typed t o c) (.flagK o2 b2) = false ∧
          AKey.eq (.flagK o2 b2) (.typed t o c) = false) := by
  refine ⟨?_, ?_, ?_, ?_⟩
  · intro t o1 c1 o2 c2
    simp [AKey.eq]
  · intro o1 b1 o2 b2
    simp [AKey.eq]
  · intro t1 o1 c1 t2 o2 c2 ht
    simp [AKey.eq, ht]
  · intro t o c o2 b2
    exact ⟨rfl, rfl⟩

/-- Witness for C3: equal offset and count give equal keys; a different type
tag at the same offset gives unequal keys. -/
theorem C3_key_equality_structural_witness :
    AKey.eq (.typed "F" 8 1) (.typed "F" 8 1) = true ∧
    AKey.eq (.typed "F" 8 1) (.typed "I" 8 1) = false := by
  refine ⟨(C3_key_equality_structural.1 "F" 8 1 8 1).mpr ⟨rfl, rfl⟩, ?_⟩
  exact C3_key_equality_structural.2.2.1 "F" 8 1 "I" 8 1 (by decide)

/-! Record model (`src/src/table/BaseRecord.cc` with the key accessors of
`src/include/lsst/afw/table/Key.h`).  A record buffer is a map from element
addresses to element bit patterns; elements are 64-bit machine words
(`Nat` values below `2 ^ 64`).  Variable-length array and string fields store
a separately allocated payload object at their offset, modelled as a second
map from offsets to value lists. -/

/-- Element type of a fixed-size field, as far as it matters to record
initialization: `float`/`double` elements (and `Angle`, which fills as
`double`) are NaN-filled; integer and character elements are left at zero. -/
inductive ElemKind where
  | intE
  | charE
  | floatE
  | angleE
deriving DecidableEq

/-- One field of a schema, reduced to its layout: a fixed-size field
(scalar, fixed-size array, or fixed-size string) with element kind, offset
and element count; a Flag field with the offset of its shared word and its
bit index; or a variable-length array/string field with its offset. -/
inductive SchemaItem where
  | fixed (kind : ElemKind) (off : Nat) (count : Nat)
  | flagF (off : Nat) (bit : Nat)
  | varF (off : Nat)
deriving DecidableEq

/-- All-ones 64-bit word, the value of `~Element(0)` for the int64 element
type of Flag words. -/
def mask64 : Nat := 2 ^ 64 - 1

/-- Bit pattern of a quiet NaN (the value `std::numeric_limits<double>::quiet_NaN()`
stores into an element). -/
def nanBits : Nat := 0x7FF8000000000000

/-- Translation of `Key<Flag>::getValue` (Key.h lines 212–214):
`(*p) & (Element(1) << _bit)`, converted to `bool`. -/
def flagGet (w : Nat) (bit : Nat) : Bool := (w &&& (1 <<< bit)) != 0

/-- Translation of `Key<Flag>::setValue` (Key.h lines 217–223): set the bit
with `*p |= Element(1) << _bit`, or clear it with `*p &= ~(Element(1) << _bit)`;
the complement is taken at the 64-bit width of the element. -/
def flagSet (w : Nat) (bit : Nat) (v : Bool) : Nat :=
  if v then w ||| (1 <<< bit) else w &&& (mask64 ^^^ (1 <<< bit))

theorem flagGet_eq_testBit (w bit : Nat) : flagGet w bit = w.testBit bit := by
  have h : w &&& 1 <<< bit = (w.testBit bit).toNat * 2 ^ bit := by
    rw [Nat.one_shiftLeft, Nat.and_two_pow]
  have hp : (2 : Nat) ^ bit ≠ 0 := Nat.ne_of_gt (pow_pos (by decide) bit)
  cases hb : w.testBit bit <;> simp [flagGet, h, hb, hp]

theorem testBit_mask64 (i : Nat) : mask64.testBit i = decide (i < 64) := by
  simpa [mask64] using Nat.testBit_two_pow_sub_one 64 i

/-- Setting a flag and reading it back through the same key yields the value
that was set (for a bit index within the 64-bit word). -/
theorem flagGet_flagSet_same (w bit : Nat) (v : Bool) (hbit : bit < 64) :
    flagGet (flagSet w bit v) bit = v := by
  cases v with
  | true =>
    rw [flagGet_eq_testBit, flagSet]
    simp [Nat.testBit_or, Nat.one_shiftLeft, Nat.testBit_two_pow]
  | false =>
    rw [flagGet_eq_testBit, flagSet]
    simp [Nat.testBit_and, Nat.testBit_xor, Nat.one_shiftLeft, Nat.testBit_two_pow,
      testBit_mask64, hbit]

/-- Setting a flag leaves every other bit of the shared word unchanged (the
word being a 64-bit pattern). -/
theorem flagSet_testBit_other (w bit : Nat) (v : Bool) (b2 : Nat)
    (hw : w < 2 ^ 64) (hne : b2 ≠ bit) :
    (flagSet w bit v).testBit b2 = w.testBit b2 := by
  cases v with
  | true =>
    rw [flagSet]
    simp [Nat.testBit_or, Nat.one_shiftLeft, Nat.testBit_two_pow, Ne.symm hne]
  | false =>
    rw [flagSet]
    by_cases h64 : b2 < 64
    · simp [Nat.testBit_and, Nat.testBit_xor, Nat.one_shiftLeft, Nat.testBit_two_pow,
        testBit_mask64, h64, Ne.symm hne]
    · have hx : w.testBit b2 = false :=
        Nat.testBit_lt_two_pow (Nat.lt_of_lt_of_le hw (Nat.pow_le_pow_right (by decide)
          (Nat.le_of_not_lt h64)))
      simp [Nat.testBit_and, hx]

/-- Writing a flag bit with the value it already holds leaves the word
unchanged. -/
theorem flagSet_own (w bit : Nat) (hw : w < 2 ^ 64) (hbit : bit < 64) :
    flagSet w bit (flagGet w bit) = w := by
  apply Nat.eq_of_testBit_eq
  intro i
  by_cases hib : i = bit
  · subst hib
    rw [← flagGet_eq_testBit, ← flagGet_eq_testBit, flagGet_flagSet_same w i _ hbit]
  · exact flagSet_testBit_other w bit _ i hw hib

/-- A record (`BaseRecord`): the schema it was created with, its element
buffer, and the payload store for variable-length fields.  Each buffer
element is the 64-bit bit pattern of one field element (for floating-point
elements, the bit pattern of the stored value). -/
structure Rec where
  schema : List SchemaItem
  mem : Nat → Nat
  vmem : Nat → List Nat

/-- The value of one field of a record. -/
inductive FieldVal where
  | elems : List Nat → FieldVal
  | bit : Bool → FieldVal
  | varV : List Nat → FieldVal
deriving DecidableEq

/-- The `count` elements stored at offset `off`. -/
def readRange (m : Nat → Nat) (off count : Nat) : List Nat :=
  (List.range count).map (fun i => m (off + i))

/-- Translation of `BaseRecord::get`: fixed-size fields read their elements
at the key's offset; Flag fields go through `Key<Flag>::getValue` on the
shared word; variable-length fields read their payload object. -/
def Rec.getItem (r : Rec) : SchemaItem → FieldVal
  | .fixed _ off count => .elems (readRange r.mem off count)
  | .flagF off bit => .bit (flagGet (r.mem off) bit)
  | .varF off => .varV (r.vmem off)

/-- One step of the `CopyValue` functor of BaseRecord.cc (lines 65–118)
applied at a single schema item, input key equal to output key: fixed-size
fields copy `elementCount` elements at the key's offset with `std::copy`;
`Flag` fields perform `set(outputKey, get(inputKey))`, i.e.
`Key<Flag>::setValue` of the value read by `Key<Flag>::getValue`;
variable-length fields copy the payload value (`ndarray::copy` / `std::string`
value assignment). -/
def copyItem (inp : Rec) (out : Rec) : SchemaItem → Rec
  | .fixed _ off count =>
      { out with mem := fun a => if off ≤ a ∧ a < off + count then inp.mem a else out.mem a }
  | .flagF off bit =>
      { out with mem := fun a =>
          if a = off then flagSet (out.mem off) bit (flagGet (inp.mem off) bit)
          else out.mem a }
  | .varF off =>
      { out with vmem := fun a => if a = off then inp.vmem off else out.vmem a }

/-- Translation of `BaseRecord::assign(other)` (BaseRecord.cc lines
122–128): throw a logic error if the schemas are unequal, otherwise run
`CopyValue` over every item of the schema. -/
def Rec.assign (self other : Rec) : Except String Rec :=
  if self.schema ≠ other.schema then
    .error "Unequal schemas in record assignment."
  else
    .ok (self.schema.foldl (fun acc it => copyItem other acc it) self)

/-- One field mapping of a `SchemaMapper`: the input and output keys of one
`addMapping` call.  Non-array scalar pairs (`scalarM`) copy elements
unconditionally; array and string pairs (`arrayM`) record each side's
variable-lengthness, which `CopyValue` checks at copy time — a mapper can
pair a variable-length key with a fixed-length one; Flag pairs carry the
offsets and bit indices.  `icount` is the input key's element count, the
count `CopyValue` copies. -/
inductive Mapping where
  | scalarM (ioff ooff count : Nat)
  | arrayM (ivar : Bool) (ioff icount : Nat) (ovar : Bool) (ooff : Nat)
  | flagM (ioff ibit ooff obit : Nat)
deriving DecidableEq

/-- A `SchemaMapper`: its input schema, output schema, and field mappings. -/
structure SchemaMapperM where
  inputSchema : List SchemaItem
  outputSchema : List SchemaItem
  mappings : List Mapping
deriving DecidableEq

/-- Modelled from the spec: `Schema::contains(other)` (the Schema
implementation is not under `src/`) — true iff every field of `other` is
present, with its layout, in `self`. -/
def schemaContains (self other : List SchemaItem) : Bool :=
  other.all (fun it => decide (it ∈ self))

/-- One step of the `CopyValue` functor for a mapper pair (input key, output
key), BaseRecord.cc lines 65–105: scalar pairs `std::copy` the input key's
elements to the output key's offset; array and string pairs first throw
`InvalidParameterError` when exactly one side is variable-length (lines
74–78 and 89–93), then either copy the payload value (variable-length) or
the elements (fixed-length); Flag pairs set the output bit from the input
bit. -/
def copyMapping (inp : Rec) (out : Rec) : Mapping → Except String Rec
  | .scalarM ioff ooff count =>
      .ok { out with mem := fun a =>
          if ooff ≤ a ∧ a < ooff + count then inp.mem (ioff + (a - ooff)) else out.mem a }
  | .arrayM ivar ioff icount ovar ooff =>
      if ivar ≠ ovar then
        .error "At least one input array field is variable-length and the correponding output is not, or vice-versa"
      else if ivar then
        .ok { out with vmem := fun a => if a = ooff then inp.vmem ioff else out.vmem a }
      else
        .ok { out with mem := fun a =>
            if ooff ≤ a ∧ a < ooff + icount then inp.mem (ioff + (a - ooff)) else out.mem a }
  | .flagM ioff ibit ooff obit =>
      .ok { out with mem := fun a =>
          if a = ooff then flagSet (out.mem ooff) obit (flagGet (inp.mem ioff) ibit)
          else out.mem a }

/-- Translation of `BaseRecord::assign(other, mapper)` (BaseRecord.cc lines
130–141): throw a logic error if the input record's schema does not contain
the mapper's input schema, then if this record's schema does not contain the
mapper's output schema; otherwise run `CopyValue` over the mapper's
mappings, which can itself throw on a variable/fixed-length array or string
mismatch. -/
def Rec.assignMapped (self other : Rec) (mapper : SchemaMapperM) : Except String Rec :=
  if !(schemaContains other.schema mapper.inputSchema) then
    .error "Unequal schemas between input record and mapper."
  else if !(schemaContains self.schema mapper.outputSchema) then
    .error "Unequal schemas between output record and mapper."
  else
    mapper.mappings.foldlM (fun acc m => copyMapping other acc m) self

/-- The mappings on which `CopyValue` throws: array/string pairs with
exactly one variable-length side. -/
def mvarMismatch : Mapping → Bool
  | .arrayM ivar _ _ ovar _ => ivar != ovar
  | _ => false

/-- One step of the `RecordInitializer` functor of BaseRecord.cc (lines
17–62): float/double/Angle elements of fixed-size fields are filled with the
quiet-NaN pattern; integer and character elements are left alone (the
template `fill` overload is a no-op, the buffer is already zero);
`Flag` fields are left alone; variable-length fields get a placement-new
empty payload. -/
def initItem (r : Rec) : SchemaItem → Rec
  | .fixed kind off count =>
      if kind = .floatE ∨ kind = .angleE then
        { r with mem := fun a => if off ≤ a ∧ a < off + count then nanBits else r.mem a }
      else r
  | .flagF _ _ => r
  | .varF off => { r with vmem := fun a => if a = off then [] else r.vmem a }

/-- Construction of a fresh record (the `BaseRecord` constructor,
BaseRecord.cc lines 143–150): the buffer starts zeroed — per the
`RecordInitializer` comment, non-NaN fields "should already be zero" — and
the initializer runs over every schema item. -/
def mkRecord (s : List SchemaItem) : Rec :=
  s.foldl initItem { schema := s, mem := fun _ => 0, vmem := fun _ => [] }

/-- Addresses at which an item stores floating-point element content. -/
def floatAddrB : SchemaItem → Nat → Bool
  | .fixed k off count, a =>
      (decide (k = .floatE) || decide (k = .angleE)) && decide (off ≤ a) &&
        decide (a < off + count)
  | .flagF _ _, _ => false
  | .varF _, _ => false

/-- Addresses at which an item stores integer-valued (word) content. -/
def wordAddrB : SchemaItem → Nat → Bool
  | .fixed k off count, a =>
      (decide (k = .intE) || decide (k = .charE)) && decide (off ≤ a) &&
        decide (a < off + count)
  | .flagF off _, a => decide (a = off)
  | .varF _, _ => false

/-- One past the last buffer address an item can touch. -/
def itemEnd : SchemaItem → Nat
  | .fixed _ off count => off + count
  | .flagF off _ => off + 1
  | .varF off => off

/-- Schema layout invariant (spec §3: offsets are monotonically assigned and
non-overlapping, except that Flag fields share integer words): no buffer
address belongs to both a floating-point field and an integer, character or
Flag word, and every Flag bit index fits the 64-bit shared word. -/
def wfSchema (s : List SchemaItem) : Bool :=
  s.all (fun it =>
    match it with
    | .flagF _ b => decide (b < 64)
    | _ => true) &&
  s.all (fun g => s.all (fun h =>
    (List.range (itemEnd g)).all (fun a => !(floatAddrB g a && wordAddrB h a))))

theorem floatAddrB_lt_itemEnd {g : SchemaItem} {a : Nat} (h : floatAddrB g a = true) :
    a < itemEnd g := by
  cases g with
  | fixed k off count =>
    simp only [floatAddrB, Bool.and_eq_true, decide_eq_true_eq] at h
    exact h.2
  | flagF off bit => simp [floatAddrB] at h
  | varF off => simp [floatAddrB] at h

theorem wfSchema_flag_bit {s : List SchemaItem} (hwf : wfSchema s = true)
    {off bit : Nat} (hm : SchemaItem.flagF off bit ∈ s) : bit < 64 := by
  rw [wfSchema, Bool.and_eq_true] at hwf
  have h1 := hwf.1
  rw [List.all_eq_true] at h1
  have := h1 _ hm
  simpa using this

theorem wfSchema_no_overlap {s : List SchemaItem} (hwf : wfSchema s = true)
    {g h : SchemaItem} (hg : g ∈ s) (hh : h ∈ s) {a : Nat}
    (hf : floatAddrB g a = true) : wordAddrB h a = false := by
  rw [wfSchema, Bool.and_eq_true] at hwf
  have h2 := hwf.2
  rw [List.all_eq_true] at h2
  have h3 := h2 _ hg
  rw [List.all_eq_true] at h3
  have h4 := h3 _ hh
  rw [List.all_eq_true] at h4
  have h5 := h4 _ (List.mem_range.mpr (floatAddrB_lt_itemEnd hf))
  simpa [hf] using h5

/-- Variant of `flagSet_testBit_other` that bounds the observed bit instead
of the word: bits below 64 other than the written one are unchanged for any
word. -/
theorem flagSet_testBit_other_lt (w bit : Nat) (v : Bool) (b2 : Nat)
    (hb2 : b2 < 64) (hne : b2 ≠ bit) :
    (flagSet w bit v).testBit b2 = w.testBit b2 := by
  cases v with
  | true =>
    rw [flagSet]
    simp [Nat.testBit_or, Nat.one_shiftLeft, Nat.testBit_two_pow, Ne.symm hne]
  | false =>
    rw [flagSet]
    simp [Nat.testBit_and, Nat.testBit_xor, Nat.one_shiftLeft, Nat.testBit_two_pow,
      testBit_mask64, hb2, Ne.symm hne]

/-- Pointwise agreement of a buffer/payload pair with record `o` at one
schema item: the buffer holds `o`'s value for that field. -/
def AgreesAt (m : Nat → Nat) (vm : Nat → List Nat) (o : Rec) : SchemaItem → Prop
  | .fixed _ off count => ∀ i, i < count → m (off + i) = o.mem (off + i)
  | .flagF off bit => flagGet (m off) bit = flagGet (o.mem off) bit
  | .varF off => vm off = o.vmem off

theorem copyItem_schema (o acc : Rec) (it : SchemaItem) :
    (copyItem o acc it).schema = acc.schema := by
  cases it <;> rfl

theorem copyItem_establishes (o acc : Rec) (it : SchemaItem)
    (hbit : ∀ off bit, it = SchemaItem.flagF off bit → bit < 64) :
    AgreesAt (copyItem o acc it).mem (copyItem o acc it).vmem o it := by
  cases it with
  | fixed k off count =>
    intro i hi
    show (if off ≤ off + i ∧ off + i < off + count then o.mem (off + i)
          else acc.mem (off + i)) = o.mem (off + i)
    rw [if_pos ⟨Nat.le_add_right _ _, by omega⟩]
  | flagF off bit =>
    show flagGet (if off = off then flagSet (acc.mem off) bit (flagGet (o.mem off) bit)
          else acc.mem off) bit = flagGet (o.mem off) bit
    rw [if_pos rfl]
    exact flagGet_flagSet_same _ _ _ (hbit off bit rfl)
  | varF off =>
    show (if off = off then o.vmem off else acc.vmem off) = o.vmem off
    rw [if_pos rfl]

theorem copyItem_preserves (o acc : Rec) (it jt : SchemaItem)
    (hob : ∀ a, o.mem a < 2 ^ 64)
    (hjb : ∀ off bit, jt = SchemaItem.flagF off bit → bit < 64)
    (hib : ∀ off bit, it = SchemaItem.flagF off bit → bit < 64)
    (hag : AgreesAt acc.mem acc.vmem o it) :
    AgreesAt (copyItem o acc jt).mem (copyItem o acc jt).vmem o it := by
  cases jt with
  | fixed k2 off2 count2 =>
    cases it with
    | fixed k off count =>
      intro i hi
      show (if off2 ≤ off + i ∧ off + i < off2 + count2 then o.mem (off + i)
            else acc.mem (off + i)) = o.mem (off + i)
      by_cases h : off2 ≤ off + i ∧ off + i < off2 + count2
      · rw [if_pos h]
      · rw [if_neg h]; exact hag i hi
    | flagF off bit =>
      show flagGet (if off2 ≤ off ∧ off < off2 + count2 then o.mem off else acc.mem off) bit =
        flagGet (o.mem off) bit
      by_cases h : off2 ≤ off ∧ off < off2 + count2
      · rw [if_pos h]
      · rw [if_neg h]; exact hag
    | varF off => exact hag
  | flagF off2 bit2 =>
    cases it with
    | fixed k off count =>
      intro i hi
      show (if off + i = off2 then flagSet (acc.mem off2) bit2 (flagGet (o.mem off2) bit2)
            else acc.mem (off + i)) = o.mem (off + i)
      by_cases h : off + i = off2
      · rw [if_pos h]
        have hacc : acc.mem off2 = o.mem off2 := h ▸ hag i hi
        rw [hacc, flagSet_own _ _ (hob off2) (hjb off2 bit2 rfl), h]
      · rw [if_neg h]; exact hag i hi
    | flagF off bit =>
      show flagGet (if off = off2 then flagSet (acc.mem off2) bit2 (flagGet (o.mem off2) bit2)
            else acc.mem off) bit = flagGet (o.mem off) bit
      by_cases h : off = off2
      · rw [if_pos h]
        subst h
        by_cases hb : bit = bit2
        · subst hb
          rw [flagGet_flagSet_same _ _ _ (hjb off bit rfl)]
        · rw [flagGet_eq_testBit,
            flagSet_testBit_other_lt _ _ _ _ (hib off bit rfl) hb, ← flagGet_eq_testBit]
          exact hag
      · rw [if_neg h]; exact hag
    | varF off => exact hag
  | varF off2 =>
    cases it with
    | fixed k off count => exact hag
    | flagF off bit => exact hag
    | varF off =>
      show (if off = off2 then o.vmem off2 else acc.vmem off) = o.vmem off
      by_cases h : off = off2
      · rw [if_pos h, h]
      · rw [if_neg h]; exact hag

theorem foldl_copyItem_preserves (o : Rec) (L : List SchemaItem) (acc : Rec)
    (it : SchemaItem)
    (hob : ∀ a, o.mem a < 2 ^ 64)
    (hLb : ∀ off bit, SchemaItem.flagF off bit ∈ L → bit < 64)
    (hib : ∀ off bit, it = SchemaItem.flagF off bit → bit < 64)
    (hag : AgreesAt acc.mem acc.vmem o it) :
    AgreesAt (L.foldl (fun a2 jt => copyItem o a2 jt) acc).mem
      (L.foldl (fun a2 jt => copyItem o a2 jt) acc).vmem o it := by
  induction L generalizing acc with
  | nil => exact hag
  | cons jt rest ih =>
    refine ih (copyItem o acc jt) (fun off bit hm => hLb off bit (List.mem_cons_of_mem _ hm)) ?_
    exact copyItem_preserves o acc it jt hob
      (fun off bit he => hLb off bit (he ▸ List.mem_cons_self _ _)) hib hag

theorem foldl_copyItem_agrees (o : Rec) (L : List SchemaItem) (acc : Rec)
    (hob : ∀ a, o.mem a < 2 ^ 64)
    (hLb : ∀ off bit, SchemaItem.flagF off bit ∈ L → bit < 64)
    (it : SchemaItem) (hit : it ∈ L) :
    AgreesAt (L.foldl (fun a2 jt => copyItem o a2 jt) acc).mem
      (L.foldl (fun a2 jt => copyItem o a2 jt) acc).vmem o it := by
  induction L generalizing acc with
  | nil => cases hit
  | cons jt rest ih =>
    rcases List.mem_cons.mp hit with he | hm
    · subst he
      refine foldl_copyItem_preserves o rest (copyItem o acc it) it hob
        (fun off bit hm => hLb off bit (List.mem_cons_of_mem _ hm))
        (fun off bit he => hLb off bit (he ▸ List.mem_cons_self _ _)) ?_
      exact copyItem_establishes o acc it
        (fun off bit he => hLb off bit (he ▸ List.mem_cons_self _ _))
    · exact ih (copyItem o acc jt) (fun off bit hm2 => hLb off bit (List.mem_cons_of_mem _ hm2)) hm

theorem getItem_eq_of_agrees (r o : Rec) (it : SchemaItem)
    (h : AgreesAt r.mem r.vmem o it) : r.getItem it = o.getItem it := by
  cases it with
  | fixed k off count =>
    show FieldVal.elems (readRange r.mem off count) = FieldVal.elems (readRange o.mem off count)
    have : readRange r.mem off count = readRange o.mem off count :=
      List.map_congr_left (fun i hi => h i (List.mem_range.mp hi))
    rw [this]
  | flagF off bit =>
    show FieldVal.bit (flagGet (r.mem off) bit) = FieldVal.bit (flagGet (o.mem off) bit)
    rw [h]
  | varF off =>
    show FieldVal.varV (r.vmem off) = FieldVal.varV (o.vmem off)
    rw [h]

theorem initItem_schema (r : Rec) (it : SchemaItem) : (initItem r it).schema = r.schema := by
  cases it with
  | fixed k off count =>
    show (if k = .floatE ∨ k = .angleE then _ else r).schema = r.schema
    split <;> rfl
  | flagF off bit => rfl
  | varF off => rfl

theorem foldl_initItem_schema (L : List SchemaItem) (b : Rec) :
    (L.foldl initItem b).schema = b.schema := by
  induction L generalizing b with
  | nil => rfl
  | cons it rest ih => rw [List.foldl_cons, ih, initItem_schema]

theorem mkRecord_schema (s : List SchemaItem) : (mkRecord s).schema = s :=
  foldl_initItem_schema s _

/-- Claim C4: assigning a record `r` into a freshly default-constructed
record of the same table (same schema) copies every field: afterwards the
target's value equals `r`'s value at every key of the schema — Flag fields
and fixed- and variable-length array/string fields included.  The
hypotheses state the machine invariants of a real record and schema: every
buffer element is a 64-bit pattern, and the schema layout is well formed. -/
theorem C4_assign_roundtrip (r : Rec) (hob : ∀ a, r.mem a < 2 ^ 64)
    (hwf : wfSchema r.schema = true) :
    ∃ r2 : Rec, Rec.assign (mkRecord r.schema) r = .ok r2 ∧
      ∀ it ∈ r.schema, r2.getItem it = r.getItem it := by
  have hsch : (mkRecord r.schema).schema = r.schema := mkRecord_schema r.schema
  refine ⟨(mkRecord r.schema).schema.foldl (fun acc it => copyItem r acc it)
    (mkRecord r.schema), ?_, ?_⟩
  · rw [Rec.assign, if_neg (fun h => h hsch)]
  · intro it hit
    apply getItem_eq_of_agrees
    rw [hsch]
    exact foldl_copyItem_agrees r r.schema (mkRecord r.schema) hob
      (fun off bit hm => wfSchema_flag_bit hwf hm) it hit

/-- Witness for C4 at a concrete record whose schema has a two-element
float field, an int field, two Flag bits sharing a word, and a
variable-length field. -/
theorem C4_assign_roundtrip_witness :
    ∃ r2 : Rec,
      Rec.assign
        (mkRecord (Rec.mk [.fixed .floatE 0 2, .fixed .intE 2 1, .flagF 3 0, .flagF 3 5, .varF 4]
          (fun a => a % 3 + 5) (fun a => if a = 4 then [7, 9] else [])).schema)
        (Rec.mk [.fixed .floatE 0 2, .fixed .intE 2 1, .flagF 3 0, .flagF 3 5, .varF 4]
          (fun a => a % 3 + 5) (fun a => if a = 4 then [7, 9] else [])) = .ok r2 ∧
      ∀ it ∈ (Rec.mk [.fixed .floatE 0 2, .fixed .intE 2 1, .flagF 3 0, .flagF 3 5, .varF 4]
          (fun a => a % 3 + 5) (fun a => if a = 4 then [7, 9] else [])).schema,
        r2.getItem it =
          (Rec.mk [.fixed .floatE 0 2, .fixed .intE 2 1, .flagF 3 0, .flagF 3 5, .varF 4]
            (fun a => a % 3 + 5) (fun a => if a = 4 then [7, 9] else [])).getItem it := by
  apply C4_assign_roundtrip
  · intro a
    have h3 : a % 3 < 3 := Nat.mod_lt a (by decide)
    have : a % 3 + 5 < 8 := by omega
    exact Nat.lt_trans this (by norm_num)
  · decide

/-- Predicate used to phrase failure of `assign` (a thrown C++ exception is
an `Except.error` in the model). -/
def isErr {α : Type} : Except String α → Bool
  | .error _ => true
  | .ok _ => false

theorem foldlM_copyMapping_err (other : Rec) (L : List Mapping) :
    ∀ acc : Rec,
      isErr (L.foldlM (fun acc2 m => copyMapping other acc2 m) acc) = true ↔
        ∃ m ∈ L, mvarMismatch m = true := by
  induction L with
  | nil =>
    intro acc
    constructor
    · intro h; cases h
    · rintro ⟨m, hm, _⟩; cases hm
  | cons m rest ih =>
    intro acc
    rw [List.foldlM_cons]
    match hm : m with
    | .scalarM ioff ooff count =>
      rw [copyMapping]
      show isErr (rest.foldlM _ _) = true ↔ _
      rw [ih _]
      constructor
      · rintro ⟨m2, hm2, hmis⟩; exact ⟨m2, List.mem_cons_of_mem _ hm2, hmis⟩
      · rintro ⟨m2, hm2, hmis⟩
        rcases List.mem_cons.mp hm2 with he | h2
        · rw [he] at hmis; cases hmis
        · exact ⟨m2, h2, hmis⟩
    | .flagM ioff ibit ooff obit =>
      rw [copyMapping]
      show isErr (rest.foldlM _ _) = true ↔ _
      rw [ih _]
      constructor
      · rintro ⟨m2, hm2, hmis⟩; exact ⟨m2, List.mem_cons_of_mem _ hm2, hmis⟩
      · rintro ⟨m2, hm2, hmis⟩
        rcases List.mem_cons.mp hm2 with he | h2
        · rw [he] at hmis; cases hmis
        · exact ⟨m2, h2, hmis⟩
    | .arrayM ivar ioff icount ovar ooff =>
      rw [copyMapping]
      by_cases hne : ivar ≠ ovar
      · rw [if_pos hne]
        show isErr (Except.error _) = true ↔ _
        constructor
        · intro _
          refine ⟨.arrayM ivar ioff icount ovar ooff, List.mem_cons_self _ _, ?_⟩
          rw [mvarMismatch]
          cases ivar <;> cases ovar <;> first | rfl | exact absurd rfl hne
        · intro _; rfl
      · rw [if_neg hne]
        have hstep : ∀ acc2 : Rec,
            isErr (rest.foldlM (fun a2 m2 => copyMapping other a2 m2) acc2) = true ↔
              ∃ m2 ∈ Mapping.arrayM ivar ioff icount ovar ooff :: rest,
                mvarMismatch m2 = true := by
          intro acc2
          rw [ih acc2]
          constructor
          · rintro ⟨m2, hm2, hmis⟩; exact ⟨m2, List.mem_cons_of_mem _ hm2, hmis⟩
          · rintro ⟨m2, hm2, hmis⟩
            rcases List.mem_cons.mp hm2 with he | h2
            · rw [he, mvarMismatch] at hmis
              rw [not_not] at hne
              rw [hne] at hmis
              simp at hmis
            · exact ⟨m2, h2, hmis⟩
        by_cases hv : ivar
        · rw [if_pos hv]
          show isErr (rest.foldlM _ _) = true ↔ _
          exact hstep _
        · rw [if_neg hv]
          show isErr (rest.foldlM _ _) = true ↔ _
          exact hstep _

/-- Claim C5: `assign(other)` raises the schema-mismatch logic error exactly
when the two schemas are unequal (and otherwise copies values);
`assign(other, mapper)` raises a logic error if `other`'s schema does not
contain the mapper's input schema or this record's schema does not contain
the mapper's output schema.  When both containments hold, the remaining
error source is `CopyValue` itself, which throws exactly when some mapped
array/string pair mixes a variable-length key with a fixed-length one
(BaseRecord.cc lines 74–78 and 89–93). -/
theorem C5_assign_error_conditions :
    (∀ self other : Rec,
        isErr (Rec.assign self other) = true ↔ self.schema ≠ other.schema) ∧
    (∀ (self other : Rec) (mapper : SchemaMapperM),
        (schemaContains other.schema mapper.inputSchema = false ∨
            schemaContains self.schema mapper.outputSchema = false) →
          isErr (Rec.assignMapped self other mapper) = true) ∧
    (∀ (self other : Rec) (mapper : SchemaMapperM),
        schemaContains other.schema mapper.inputSchema = true →
        schemaContains self.schema mapper.outputSchema = true →
          (isErr (Rec.assignMapped self other mapper) = true ↔
            ∃ m ∈ mapper.mappings, mvarMismatch m = true)) := by
  refine ⟨?_, ?_, ?_⟩
  · intro self other
    rw [Rec.assign]
    by_cases h : self.schema ≠ other.schema
    · simp [h, isErr]
    · simp [h, isErr]
  · intro self other mapper hor
    rw [Rec.assignMapped]
    rcases hor with h1 | h2
    · simp [h1, isErr]
    · by_cases h1 : schemaContains other.schema mapper.inputSchema
      · simp [h1, h2, isErr]
      · simp [h1, isErr]
  · intro self other mapper h1 h2
    rw [Rec.assignMapped]
    simp only [h1, h2, Bool.not_true, Bool.false_eq_true, if_false]
    exact foldlM_copyMapping_err other mapper.mappings self

/-- Witness for C5: unequal schemas make `assign` fail, equal ones do not;
a mapper whose input schema is missing from the source record makes the
mapped `assign` fail; and with both containments satisfied, a mapping that
pairs a variable-length array with a fixed-length one makes it fail too. -/
theorem C5_assign_error_conditions_witness :
    isErr (Rec.assign (Rec.mk [.varF 0] (fun _ => 0) (fun _ => []))
      (Rec.mk [] (fun _ => 0) (fun _ => []))) = true ∧
    isErr (Rec.assign (Rec.mk [.varF 0] (fun _ => 0) (fun _ => []))
      (Rec.mk [.varF 0] (fun _ => 0) (fun _ => []))) = false ∧
    isErr (Rec.assignMapped (Rec.mk [] (fun _ => 0) (fun _ => []))
      (Rec.mk [] (fun _ => 0) (fun _ => []))
      (SchemaMapperM.mk [.varF 0] [] [])) = true ∧
    isErr (Rec.assignMapped (Rec.mk [] (fun _ => 0) (fun _ => []))
      (Rec.mk [] (fun _ => 0) (fun _ => []))
      (SchemaMapperM.mk [] [] [.arrayM true 0 0 false 4])) = true := by
  refine ⟨?_, ?_, ?_, ?_⟩
  · exact (C5_assign_error_conditions.1 _ _).mpr (by decide)
  · have h := C5_assign_error_conditions.1
      (Rec.mk [.varF 0] (fun _ => 0) (fun _ => []))
      (Rec.mk [.varF 0] (fun _ => 0) (fun _ => []))
    rcases hv : isErr (Rec.assign (Rec.mk [.varF 0] (fun _ => 0) (fun _ => []))
      (Rec.mk [.varF 0] (fun _ => 0) (fun _ => []))) with _ | _
    · rfl
    · exact absurd rfl (by rw [hv] at h; exact h.mp rfl)
  · exact C5_assign_error_conditions.2.1 _ _ _ (Or.inl (by decide))
  · exact (C5_assign_error_conditions.2.2 _ _ _ (by decide) (by decide)).mpr
      ⟨.arrayM true 0 0 false 4, List.mem_cons_self _ _, rfl⟩

/-- Translation of `BaseRecord::set` at a Flag key: `Key<Flag>::setValue`
applied to the shared word at the key's offset; no other element and no
variable-length payload is touched. -/
def Rec.setFlag (r : Rec) (off bit : Nat) (v : Bool) : Rec :=
  { r with mem := fun a => if a = off then flagSet (r.mem off) bit v else r.mem a }

/-- Claim C10: setting a Flag field changes only the single bit at the
key's bit index within the shared word at the key's offset — every other
bit of that word, every other buffer element and every variable-length
payload is unchanged — and reading the same key back yields the value that
was set. -/
theorem C10_flag_set_frame (r : Rec) (off bit : Nat) (v : Bool)
    (hw : r.mem off < 2 ^ 64) (hbit : bit < 64) :
    flagGet ((r.setFlag off bit v).mem off) bit = v ∧
    (∀ b2, b2 ≠ bit →
      ((r.setFlag off bit v).mem off).testBit b2 = (r.mem off).testBit b2) ∧
    (∀ a, a ≠ off → (r.setFlag off bit v).mem a = r.mem a) ∧
    (r.setFlag off bit v).vmem = r.vmem ∧
    (r.setFlag off bit v).getItem (.flagF off bit) = .bit v := by
  refine ⟨?_, ?_, ?_, rfl, ?_⟩
  · show flagGet (if off = off then flagSet (r.mem off) bit v else r.mem off) bit = v
    rw [if_pos rfl]
    exact flagGet_flagSet_same _ _ _ hbit
  · intro b2 hb2
    show (if off = off then flagSet (r.mem off) bit v else r.mem off).testBit b2 =
      (r.mem off).testBit b2
    rw [if_pos rfl]
    exact flagSet_testBit_other _ _ _ _ hw hb2
  · intro a ha
    show (if a = off then flagSet (r.mem off) bit v else r.mem a) = r.mem a
    rw [if_neg ha]
  · show FieldVal.bit (flagGet (if off = off then flagSet (r.mem off) bit v
      else r.mem off) bit) = FieldVal.bit v
    rw [if_pos rfl, flagGet_flagSet_same _ _ _ hbit]

/-- Witness for C10: setting bit 5 of the word at offset 3 in a record whose
buffer holds 2 everywhere reads back true, and the element at offset 9 is
untouched. -/
theorem C10_flag_set_frame_witness :
    flagGet ((Rec.setFlag (Rec.mk [] (fun _ => 2) (fun _ => [])) 3 5 true).mem 3) 5 = true ∧
    (Rec.setFlag (Rec.mk [] (fun _ => 2) (fun _ => [])) 3 5 true).mem 9 = 2 := by
  have h := C10_flag_set_frame (Rec.mk [] (fun _ => 2) (fun _ => [])) 3 5 true
    (by norm_num) (by decide)
  exact ⟨h.1, h.2.2.1 9 (by decide)⟩

/-- The default value of a freshly constructed record's field, as the claim
states it: NaN for floating-point elements (including each element of
fixed-size floating-point arrays and `Angle` fields), zero for integer
elements and Flag bits, empty for variable-length array/string fields. -/
def defaultVal : SchemaItem → FieldVal
  | .fixed k _ count =>
      .elems (List.replicate count (if k = .floatE ∨ k = .angleE then nanBits else 0))
  | .flagF _ _ => .bit false
  | .varF _ => .varV []

/-- Pointwise statement that a buffer/payload pair holds the default value
at one schema item. -/
def InitAt (m : Nat → Nat) (vm : Nat → List Nat) : SchemaItem → Prop
  | .fixed k off count =>
      ∀ i, i < count → m (off + i) = (if k = .floatE ∨ k = .angleE then nanBits else 0)
  | .flagF off bit => flagGet (m off) bit = false
  | .varF off => vm off = []

/-- Items whose `RecordInitializer` step writes their whole default value
itself (floating-point fills and variable-length placement-new); integer,
character and Flag content relies on the zeroed allocation instead. -/
def selfEstab : SchemaItem → Prop
  | .fixed k _ _ => k = .floatE ∨ k = .angleE
  | .flagF _ _ => False
  | .varF _ => True

instance (it : SchemaItem) : Decidable (selfEstab it) := by
  cases it with
  | fixed k off count => exact inferInstanceAs (Decidable (k = _ ∨ k = _))
  | flagF off bit => exact inferInstanceAs (Decidable False)
  | varF off => exact inferInstanceAs (Decidable True)

theorem initItem_establishes (acc : Rec) (it : SchemaItem) (hse : selfEstab it) :
    InitAt (initItem acc it).mem (initItem acc it).vmem it := by
  cases it with
  | fixed k off count =>
    have hk : (k = ElemKind.floatE ∨ k = ElemKind.angleE) := hse
    intro i hi
    rw [initItem, if_pos hk]
    show (if off ≤ off + i ∧ off + i < off + count then nanBits else acc.mem (off + i)) = _
    rw [if_pos ⟨Nat.le_add_right _ _, by omega⟩, if_pos hk]
  | flagF off bit => cases hse
  | varF off =>
    show (if off = off then [] else acc.vmem off) = []
    rw [if_pos rfl]

theorem initItem_preserves (acc : Rec) (g it : SchemaItem)
    (hcompat : ∀ a, floatAddrB g a = true → wordAddrB it a = false)
    (h : InitAt acc.mem acc.vmem it) :
    InitAt (initItem acc g).mem (initItem acc g).vmem it := by
  cases g with
  | fixed k2 off2 count2 =>
    by_cases hk2 : (k2 = ElemKind.floatE ∨ k2 = ElemKind.angleE)
    · cases it with
      | fixed k off count =>
        intro i hi
        rw [initItem, if_pos hk2]
        show (if off2 ≤ off + i ∧ off + i < off2 + count2 then nanBits
              else acc.mem (off + i)) = _
        by_cases hin : off2 ≤ off + i ∧ off + i < off2 + count2
        · rw [if_pos hin]
          have hfg : floatAddrB (.fixed k2 off2 count2) (off + i) = true := by
            simp [floatAddrB, hin.1, hin.2]
            rcases hk2 with h2 | h2 <;> simp [h2]
          have hw := hcompat _ hfg
          by_cases hk : (k = ElemKind.floatE ∨ k = ElemKind.angleE)
          · rw [if_pos hk]
          · exfalso
            have : wordAddrB (.fixed k off count) (off + i) = true := by
              cases k with
              | intE => simp [wordAddrB]; omega
              | charE => simp [wordAddrB]; omega
              | floatE => exact absurd (Or.inl rfl) hk
              | angleE => exact absurd (Or.inr rfl) hk
            rw [this] at hw
            cases hw
        · rw [if_neg hin]
          exact h i hi
      | flagF off bit =>
        rw [initItem, if_pos hk2]
        show flagGet (if off2 ≤ off ∧ off < off2 + count2 then nanBits else acc.mem off) bit
          = false
        by_cases hin : off2 ≤ off ∧ off < off2 + count2
        · exfalso
          have hfg : floatAddrB (.fixed k2 off2 count2) off = true := by
            simp [floatAddrB, hin.1, hin.2]
            rcases hk2 with h2 | h2 <;> simp [h2]
          have hw := hcompat _ hfg
          simp [wordAddrB] at hw
        · rw [if_neg hin]
          exact h
      | varF off =>
        rw [initItem, if_pos hk2]
        exact h
    · rw [initItem, if_neg hk2]
      exact h
  | flagF off2 bit2 => exact h
  | varF off2 =>
    cases it with
    | fixed k off count => exact h
    | flagF off bit => exact h
    | varF off =>
      show (if off = off2 then [] else acc.vmem off) = []
      by_cases he : off = off2
      · rw [if_pos he]
      · rw [if_neg he]
        exact h

theorem foldl_initItem_holds (it : SchemaItem) (L : List SchemaItem) (acc : Rec)
    (hcompat : ∀ g ∈ L, ∀ a, floatAddrB g a = true → wordAddrB it a = false)
    (hstart : InitAt acc.mem acc.vmem it ∨ (it ∈ L ∧ selfEstab it)) :
    InitAt (L.foldl initItem acc).mem (L.foldl initItem acc).vmem it := by
  induction L generalizing acc with
  | nil =>
    rcases hstart with h | ⟨hm, _⟩
    · exact h
    · cases hm
  | cons g rest ih =>
    rw [List.foldl_cons]
    rcases hstart with h | ⟨hm, hse⟩
    · exact ih (initItem acc g)
        (fun g2 hg2 => hcompat g2 (List.mem_cons_of_mem _ hg2))
        (Or.inl (initItem_preserves acc g it (hcompat g (List.mem_cons_self _ _)) h))
    · rcases List.mem_cons.mp hm with he | hm2
      · subst he
        exact ih (initItem acc it)
          (fun g2 hg2 => hcompat g2 (List.mem_cons_of_mem _ hg2))
          (Or.inl (initItem_establishes acc it hse))
      · exact ih (initItem acc g)
          (fun g2 hg2 => hcompat g2 (List.mem_cons_of_mem _ hg2)) (Or.inr ⟨hm2, hse⟩)

theorem flagGet_zero (bit : Nat) : flagGet 0 bit = false := by
  simp [flagGet, Nat.zero_and]

/-- Claim C6: in a freshly constructed record over a well-formed schema,
every floating-point field (each element of fixed-size floating-point
arrays and Angle fields included) holds NaN, every integer and Flag field
holds zero, and every variable-length array/string field is empty. -/
theorem C6_fresh_record_defaults (s : List SchemaItem) (hwf : wfSchema s = true) :
    ∀ it ∈ s, (mkRecord s).getItem it = defaultVal it := by
  intro it hit
  have hinit : InitAt (mkRecord s).mem (mkRecord s).vmem it := by
    rw [mkRecord]
    apply foldl_initItem_holds it s _
      (fun g hg a hf => wfSchema_no_overlap hwf hg hit hf)
    by_cases hse : selfEstab it
    · exact Or.inr ⟨hit, hse⟩
    · refine Or.inl ?_
      cases it with
      | fixed k off count =>
        intro i hi
        have hk : ¬(k = ElemKind.floatE ∨ k = ElemKind.angleE) := hse
        show (0 : Nat) = _
        rw [if_neg hk]
      | flagF off bit => exact flagGet_zero bit
      | varF off => rfl
  cases it with
  | fixed k off count =>
    show FieldVal.elems (readRange (mkRecord s).mem off count) = _
    rw [defaultVal]
    have h1 : (List.range count).map (fun i => (mkRecord s).mem (off + i)) =
        (List.range count).map
          (fun _ => (if k = ElemKind.floatE ∨ k = ElemKind.angleE then nanBits else 0)) :=
      List.map_congr_left (fun i hi => hinit i (List.mem_range.mp hi))
    rw [readRange, h1, List.map_const', List.length_range]
  | flagF off bit =>
    show FieldVal.bit (flagGet ((mkRecord s).mem off) bit) = _
    rw [hinit]
    rfl
  | varF off =>
    show FieldVal.varV ((mkRecord s).vmem off) = _
    rw [hinit]
    rfl

/-- Witness for C6: over the schema with a two-element float field, an int
field, a Flag bit and a variable-length field, the fresh record reads NaN,
zero, false and empty respectively. -/
theorem C6_fresh_record_defaults_witness :
    (mkRecord [.fixed .floatE 0 2, .fixed .intE 2 1, .flagF 3 5, .varF 4]).getItem
        (.fixed .floatE 0 2) = .elems [nanBits, nanBits] ∧
    (mkRecord [.fixed .floatE 0 2, .fixed .intE 2 1, .flagF 3 5, .varF 4]).getItem
        (.fixed .intE 2 1) = .elems [0] ∧
    (mkRecord [.fixed .floatE 0 2, .fixed .intE 2 1, .flagF 3 5, .varF 4]).getItem
        (.flagF 3 5) = .bit false ∧
    (mkRecord [.fixed .floatE 0 2, .fixed .intE 2 1, .flagF 3 5, .varF 4]).getItem
        (.varF 4) = .varV [] := by
  have h := C6_fresh_record_defaults [.fixed .floatE 0 2, .fixed .intE 2 1, .flagF 3 5, .varF 4]
    (by decide)
  refine ⟨?_, ?_, ?_, ?_⟩
  · rw [h _ (by decide)]; rfl
  · rw [h _ (by decide)]; rfl
  · rw [h _ (by decide)]; rfl
  · rw [h _ (by decide)]; rfl

/-! Id factories (`src/src/table/IdFactory.cc`).  `RecordId` is
`std::int64_t`; ids are modelled as 64-bit bit patterns (naturals below
`2 ^ 64`). -/

/-- Two's-complement value of a 64-bit pattern. -/
def toVal (w : Nat) : Int := if w < 2 ^ 63 then (w : Int) else (w : Int) - 2 ^ 64

/-- Arithmetic (sign-extending) right shift on a 64-bit pattern: the meaning
of `>>` on the signed 64-bit `RecordId`. -/
def sar64 (w r : Nat) : Nat := ((Int.fdiv (toVal w) (2 ^ r)) % (2 ^ 64 : Int)).toNat

/-- Bitwise complement at 64 bits (`~x` on `RecordId`). -/
def compl64 (w : Nat) : Nat := mask64 ^^^ w

/-- State of a `SourceIdFactory` (IdFactory.cc lines 27–66): `_upper`,
`_upperMask` and `_lower`. -/
structure SourceIdState where
  upper : Nat
  upperMask : Nat
  lower : Nat
deriving DecidableEq

/-- Translation of the `SourceIdFactory` constructor (lines 52–60):
`_upper = expId << reserved`, `_upperMask = numeric_limits<RecordId>::max() << reserved`,
`_lower = 0`; throws `InvalidParameterError` when `_upper >> reserved != expId`. -/
def mkSourceIdFactory (expId : Nat) (reserved : Nat) : Except String SourceIdState :=
  let upper := (expId <<< reserved) % 2 ^ 64
  if sar64 upper reserved ≠ expId then
    .error "Exposure ID is too large."
  else
    .ok { upper := upper, upperMask := ((2 ^ 63 - 1) <<< reserved) % 2 ^ 64, lower := 0 }

/-- Translation of `SourceIdFactory::operator()` (lines 29–38): increment
`_lower`; if the incremented value overlaps the reserved upper mask, undo
the increment and throw `LengthError` (so the state is unchanged on
failure); otherwise return `_upper | _lower`. -/
def SourceIdState.call (s : SourceIdState) : Except String (Nat × SourceIdState) :=
  let l := (s.lower + 1) % 2 ^ 64
  if l &&& s.upperMask ≠ 0 then
    .error "Next ID is too large for the number of reserved bits"
  else
    .ok (s.upper ||| l, { s with lower := l })

/-- Translation of `SourceIdFactory::notify(id)` (lines 40–48): chop off the
exact exposure bits with `id & ~_upper`; if what remains overlaps the
reserved upper mask, throw `InvalidParameterError`, otherwise store it as
`_lower`. -/
def SourceIdState.notify (s : SourceIdState) (id : Nat) : Except String SourceIdState :=
  let newLower := id &&& compl64 s.upper
  if newLower &&& s.upperMask ≠ 0 then
    .error "Explicit ID does not have the correct form."
  else
    .ok { s with lower := newLower }

/-- Iterate `operator()`, collecting the returned ids. -/
def SourceIdState.callN (s : SourceIdState) : Nat → Except String (List Nat × SourceIdState)
  | 0 => .ok ([], s)
  | n + 1 =>
    match s.call with
    | .error e => .error e
    | .ok (id, s2) =>
      match s2.callN n with
      | .error e => .error e
      | .ok (ids, s3) => .ok (id :: ids, s3)

/-- Translation of `SimpleIdFactory::operator()` (line 15): `return ++_current`
on the 64-bit counter. -/
def simpleCall (current : Nat) : Nat × Nat :=
  ((current + 1) % 2 ^ 64, (current + 1) % 2 ^ 64)

/-- Iterate `SimpleIdFactory::operator()`, collecting the returned ids. -/
def simpleCallN (current : Nat) : Nat → List Nat
  | 0 => []
  | n + 1 => (simpleCall current).1 :: simpleCallN (simpleCall current).2 n

theorem upperMask_value (r : Nat) (h1 : 1 ≤ r) (h63 : r ≤ 63) :
    ((2 ^ 63 - 1) <<< r) % 2 ^ 64 = 2 ^ 64 - 2 ^ r := by
  rw [Nat.shiftLeft_eq]
  have hc : (2 : Nat) ^ 63 * 2 ^ r = 2 ^ 64 * 2 ^ (r - 1) := by
    rw [← pow_add, ← pow_add]
    congr 1
    omega
  have hd : ((2 : Nat) ^ 63 - 1) * 2 ^ r = 2 ^ 64 * 2 ^ (r - 1) - 2 ^ r := by
    rw [Nat.sub_mul, one_mul, hc]
  rw [hd]
  have h2 : (2 : Nat) ≤ 2 ^ r := by
    calc (2 : Nat) = 2 ^ 1 := by norm_num
    _ ≤ 2 ^ r := Nat.pow_le_pow_right (by decide) h1
  have hle : (2 : Nat) ^ r ≤ 2 ^ 63 := Nat.pow_le_pow_right (by decide) h63
  have hk : 1 ≤ (2 : Nat) ^ (r - 1) := Nat.one_le_two_pow
  omega

theorem highMask_eq (r : Nat) (hr : r ≤ 64) :
    (2 : Nat) ^ 64 - 2 ^ r = (2 ^ (64 - r) - 1) <<< r := by
  rw [Nat.shiftLeft_eq, Nat.sub_mul, one_mul, ← pow_add]
  congr 2
  omega

theorem testBit_highMask (r i : Nat) (hr : r ≤ 64) :
    ((2 : Nat) ^ 64 - 2 ^ r).testBit i = (decide (r ≤ i) && decide (i < 64)) := by
  rw [highMask_eq r hr, Nat.testBit_shiftLeft, Nat.testBit_two_pow_sub_one]
  by_cases h1 : r ≤ i
  · by_cases h2 : i < 64
    · have h3 : i - r < 64 - r := by omega
      simp [h1, h2, h3, ge_iff_le]
    · have h3 : ¬(i - r < 64 - r) := by omega
      simp [h1, h2, h3, ge_iff_le]
  · simp [h1, ge_iff_le]

/-- A 64-bit value has no bit in the reserved upper mask iff it fits the
reserved low-bit width. -/
theorem and_highMask_eq_zero_iff (x r : Nat) (hx : x < 2 ^ 64) (hr : r ≤ 64) :
    x &&& (2 ^ 64 - 2 ^ r) = 0 ↔ x < 2 ^ r := by
  constructor
  · intro h
    apply Nat.lt_pow_two_of_testBit
    intro i hi
    by_cases h64 : i < 64
    · have hbit := congrArg (fun n => n.testBit i) h
      simp only [Nat.testBit_and, Nat.zero_testBit] at hbit
      rw [testBit_highMask r i hr] at hbit
      simpa [hi, h64] using hbit
    · exact Nat.testBit_lt_two_pow (Nat.lt_of_lt_of_le hx
        (Nat.pow_le_pow_right (by decide) (Nat.le_of_not_lt h64)))
  · intro h
    apply Nat.eq_of_testBit_eq
    intro i
    rw [Nat.testBit_and, Nat.zero_testBit, testBit_highMask r i hr]
    by_cases h1 : r ≤ i
    · have hf : x.testBit i = false :=
        Nat.testBit_lt_two_pow (Nat.lt_of_lt_of_le h (Nat.pow_le_pow_right (by decide) h1))
      simp [hf]
    · simp [h1]

theorem callN_ok (u r : Nat) (hr1 : 1 ≤ r) (hr63 : r ≤ 63) :
    ∀ (n k : Nat), k + n < 2 ^ r →
      SourceIdState.callN ⟨u, 2 ^ 64 - 2 ^ r, k⟩ n =
        .ok ((List.range n).map (fun i => u ||| (k + i + 1)),
          ⟨u, 2 ^ 64 - 2 ^ r, k + n⟩) := by
  intro n
  induction n with
  | zero =>
    intro k hk
    simp [SourceIdState.callN]
  | succ n ih =>
    intro k hk
    have hrle : (2 : Nat) ^ r ≤ 2 ^ 64 := Nat.pow_le_pow_right (by decide) (by omega)
    have hlt : k + 1 < 2 ^ 64 := by omega
    have hmod : (k + 1) % 2 ^ 64 = k + 1 := Nat.mod_eq_of_lt hlt
    have hz : (k + 1) &&& (2 ^ 64 - 2 ^ r) = 0 :=
      (and_highMask_eq_zero_iff (k + 1) r hlt (by omega)).mpr (by omega)
    have hcall : SourceIdState.call ⟨u, 2 ^ 64 - 2 ^ r, k⟩ =
        .ok (u ||| (k + 1), ⟨u, 2 ^ 64 - 2 ^ r, k + 1⟩) := by
      rw [SourceIdState.call]
      simp only [hmod, hz]
      rw [if_neg (fun hcon => hcon rfl)]
    have hih := ih (k + 1) (by omega)
    simp only [SourceIdState.callN, hcall, hih]
    have hlist : (List.range (n + 1)).map (fun i => u ||| (k + i + 1)) =
        (u ||| (k + 1)) :: (List.range n).map (fun i => u ||| (k + 1 + i + 1)) := by
      rw [List.range_succ_eq_map, List.map_cons, List.map_map]
      refine congrArg₂ _ (by rw [Nat.add_zero]) ?_
      apply List.map_congr_left
      intro i hi
      show u ||| (k + (i + 1) + 1) = u ||| (k + 1 + i + 1)
      congr 1
      omega
    rw [hlist]
    refine congrArg _ (congrArg₂ _ rfl ?_)
    congr 1
    omega

theorem simpleCallN_ids : ∀ (n k : Nat), k + n < 2 ^ 64 →
    simpleCallN k n = (List.range n).map (fun i => k + i + 1) := by
  intro n
  induction n with
  | zero => intro k hk; rfl
  | succ n ih =>
    intro k hk
    have hmod : (k + 1) % 2 ^ 64 = k + 1 := Nat.mod_eq_of_lt (by omega)
    rw [simpleCallN]
    show ((k + 1) % 2 ^ 64) :: simpleCallN ((k + 1) % 2 ^ 64) n = _
    rw [hmod, ih (k + 1) (by omega)]
    rw [List.range_succ_eq_map, List.map_cons, List.map_map]
    refine congrArg₂ _ (by rw [Nat.add_zero]) ?_
    apply List.map_congr_left
    intro i hi
    show k + 1 + i + 1 = k + (i + 1) + 1
    omega

/-- Claim C9: a `SourceIdFactory` built from an exposure id and `r` reserved
low bits hands out ids whose fixed upper bits are `expId << r` combined with
a low-bit sequence `1, 2, 3, …` that increments by one per call; a call
whose incremented sequence would reach the reserved upper-bit region raises
the length error; `notify(id)` stores `id & ~upper` as the new low-bit
counter and fails exactly when that value does not fit the reserved width;
and a `SimpleIdFactory` returns `1, 2, 3, …` monotonically. -/
theorem C9_id_factories (expId r : Nat) (hr1 : 1 ≤ r) (hr63 : r ≤ 63)
    (hexp : expId < 2 ^ (63 - r)) :
    (mkSourceIdFactory expId r = .ok ⟨expId * 2 ^ r, 2 ^ 64 - 2 ^ r, 0⟩) ∧
    (∀ n, n < 2 ^ r →
      SourceIdState.callN ⟨expId * 2 ^ r, 2 ^ 64 - 2 ^ r, 0⟩ n =
        .ok ((List.range n).map (fun i => (expId * 2 ^ r) ||| (i + 1)),
          ⟨expId * 2 ^ r, 2 ^ 64 - 2 ^ r, n⟩)) ∧
    (∀ lower, lower + 1 < 2 ^ 64 → 2 ^ r ≤ lower + 1 →
      isErr (SourceIdState.call ⟨expId * 2 ^ r, 2 ^ 64 - 2 ^ r, lower⟩) = true) ∧
    (∀ id lower, id < 2 ^ 64 →
      (id &&& compl64 (expId * 2 ^ r) < 2 ^ r →
        SourceIdState.notify ⟨expId * 2 ^ r, 2 ^ 64 - 2 ^ r, lower⟩ id =
          .ok ⟨expId * 2 ^ r, 2 ^ 64 - 2 ^ r, id &&& compl64 (expId * 2 ^ r)⟩) ∧
      (2 ^ r ≤ id &&& compl64 (expId * 2 ^ r) →
        isErr (SourceIdState.notify ⟨expId * 2 ^ r, 2 ^ 64 - 2 ^ r, lower⟩ id) = true)) ∧
    (∀ n, n < 2 ^ 64 → simpleCallN 0 n = (List.range n).map (fun i => i + 1)) := by
  have hupper_lt : expId * 2 ^ r < 2 ^ 63 := by
    have h1 : expId * 2 ^ r < 2 ^ (63 - r) * 2 ^ r :=
      mul_lt_mul_of_pos_right hexp (pow_pos (by decide) r)
    have h2 : (2 : Nat) ^ (63 - r) * 2 ^ r = 2 ^ 63 := by
      rw [← pow_add]
      congr 1
      omega
    omega
  have h64 : (2 : Nat) ^ 63 < 2 ^ 64 := by norm_num
  refine ⟨?_, ?_, ?_, ?_, ?_⟩
  · have hshl : (expId <<< r) % 2 ^ 64 = expId * 2 ^ r := by
      rw [Nat.shiftLeft_eq]
      exact Nat.mod_eq_of_lt (by omega)
    have hsar : sar64 (expId * 2 ^ r) r = expId := by
      rw [sar64, toVal, if_pos hupper_lt]
      have hcast : ((expId * 2 ^ r : Nat) : Int) = (expId : Int) * (2 : Int) ^ r := by
        push_cast
        ring
      have hz : ((2 : Int) ^ r) ≠ 0 := by positivity
      rw [hcast, Int.mul_fdiv_cancel _ hz]
      have hlt63 : expId < 2 ^ 63 :=
        Nat.lt_of_lt_of_le hexp (Nat.pow_le_pow_right (by decide) (by omega))
      have h1 : (expId : Int) < (2 : Int) ^ 63 := by exact_mod_cast hlt63
      have h2 : ((2 : Int) ^ 63) < (2 : Int) ^ 64 := by norm_num
      have h0 : (0 : Int) ≤ (expId : Int) := by positivity
      rw [Int.emod_eq_of_lt h0 (by omega)]
      simp
    simp only [mkSourceIdFactory, hshl, hsar]
    rw [if_neg (fun hcon => hcon rfl), upperMask_value r hr1 hr63]
  · intro n hn
    simpa using callN_ok (expId * 2 ^ r) r hr1 hr63 n 0 (by omega)
  · intro lower h1 h2
    rw [SourceIdState.call]
    have hmod : (lower + 1) % 2 ^ 64 = lower + 1 := Nat.mod_eq_of_lt h1
    have hnz : (lower + 1) &&& (2 ^ 64 - 2 ^ r) ≠ 0 := by
      intro hz
      have := (and_highMask_eq_zero_iff (lower + 1) r h1 (by omega)).mp hz
      omega
    simp only [hmod]
    rw [if_pos hnz]
    rfl
  · intro id lower hid
    have hcb : id &&& compl64 (expId * 2 ^ r) < 2 ^ 64 := by
      have h1 : compl64 (expId * 2 ^ r) < 2 ^ 64 :=
        Nat.xor_lt_two_pow (by rw [mask64]; omega) (by omega)
      exact Nat.lt_of_le_of_lt Nat.and_le_right h1
    constructor
    · intro hfit
      rw [SourceIdState.notify]
      have hz : (id &&& compl64 (expId * 2 ^ r)) &&& (2 ^ 64 - 2 ^ r) = 0 :=
        (and_highMask_eq_zero_iff _ r hcb (by omega)).mpr hfit
      simp only [hz]
      rw [if_neg (fun hcon => hcon rfl)]
    · intro hbig
      rw [SourceIdState.notify]
      have hnz : (id &&& compl64 (expId * 2 ^ r)) &&& (2 ^ 64 - 2 ^ r) ≠ 0 := by
        intro hz
        have := (and_highMask_eq_zero_iff _ r hcb (by omega)).mp hz
        omega
      rw [if_pos hnz]
      rfl
  · intro n hn
    simpa using simpleCallN_ids n 0 (by omega)

/-- Witness for C9 at `expId = 5`, 8 reserved bits: the factory constructs,
three calls return `5·2^8 | 1`, `5·2^8 | 2`, `5·2^8 | 3`, a full counter
overflows, notify accepts an id with matching upper bits, and the simple
factory returns `1, 2, 3`. -/
theorem C9_id_factories_witness :
    (mkSourceIdFactory 5 8 = .ok ⟨5 * 2 ^ 8, 2 ^ 64 - 2 ^ 8, 0⟩) ∧
    (SourceIdState.callN ⟨5 * 2 ^ 8, 2 ^ 64 - 2 ^ 8, 0⟩ 3 =
      .ok ([5 * 2 ^ 8 ||| 1, 5 * 2 ^ 8 ||| 2, 5 * 2 ^ 8 ||| 3],
        ⟨5 * 2 ^ 8, 2 ^ 64 - 2 ^ 8, 3⟩)) ∧
    (isErr (SourceIdState.call ⟨5 * 2 ^ 8, 2 ^ 64 - 2 ^ 8, 255⟩) = true) ∧
    (simpleCallN 0 3 = [1, 2, 3]) := by
  have h := C9_id_factories 5 8 (by decide) (by decide) (by norm_num)
  refine ⟨h.1, ?_, ?_, ?_⟩
  · have h2 := h.2.1 3 (by norm_num)
    rw [h2]
    rfl
  · exact h.2.2.1 255 (by norm_num) (by norm_num)
  · have h5 := h.2.2.2.2 3 (by norm_num)
    rw [h5]
    rfl

/-! HeavyFootprint dot product (`src/src/detection/HeavyFootprint.cc`,
lines 153–209).  Pixel values are modelled as exact integers. -/

/-- The inner accumulation loop of `HeavyFootprint::dot`:
`for (x = xMin; x <= xMax; ++x) sum += (*lhsArray) * (*rhsArray)` — the sum
of pairwise products of the first `n` elements of two pixel runs. -/
def overlapSum : List Int → List Int → Nat → Int
  | a :: as, b :: bs, n + 1 => a * b + overlapSum as bs n
  | _, _, _ => 0

/-- A heavy footprint: spans plus the three flattened pixel arrays, one
element per pixel in span order (`_image`, `_mask`, `_variance`). -/
structure HeavyBootprint where
  spans : List Span
  image : List Int
  mask : List Int
  variance : List Int

/-- Translation of the merge loop of `HeavyFootprint::dot` (lines 169–207).
The state is the two remaining span lists together with the corresponding
flat-array suffixes: the C++ keeps each array iterator positioned at the
start of the current span's run, so advancing past a span drops its width.
Equal rows: accumulate the products over the overlapping column range (the
iterator offset `xMin - x0` becomes a drop, and the C++ rewinds afterwards),
then advance the side whose span ends first (`x1Lhs <= x1Rhs` advances the
left side).  Unequal rows: the C++ inner `while` loops skip spans of the
lagging side and re-enter the outer loop; skipping one span per iteration
and re-dispatching is the same computation. -/
def dotGo (ls : List Span) (la : List Int) (rs : List Span) (ra : List Int)
    (sum : Int) : Int :=
  match ls, rs with
  | [], _ => sum
  | _ :: _, [] => sum
  | l :: lt, r :: rt =>
    if l.y = r.y then
      let xMin := max l.x0 r.x0
      let xMax := min l.x1 r.x1
      let sum2 := if xMin ≤ xMax then
          sum + overlapSum (la.drop (xMin - l.x0).toNat) (ra.drop (xMin - r.x0).toNat)
            (xMax + 1 - xMin).toNat
        else sum
      if l.x1 ≤ r.x1 then
        dotGo lt (la.drop l.width.toNat) (r :: rt) ra sum2
      else
        dotGo (l :: lt) la rt (ra.drop r.width.toNat) sum2
    else if l.y < r.y then
      dotGo lt (la.drop l.width.toNat) (r :: rt) ra sum
    else
      dotGo (l :: lt) la rt (ra.drop r.width.toNat) sum
termination_by ls.length + rs.length
decreasing_by all_goals simp_wf

/-- Translation of `HeavyFootprint::dot(rhs)`: run the merge loop over the
two span lists and image arrays, starting from `sum = 0.0`.  Only the image
arrays enter; mask and variance are ignored. -/
def HeavyBootprint.dot (h1 h2 : HeavyBootprint) : Int :=
  dotGo h1.spans h1.image h2.spans h2.image 0

/-- The per-span chunks of a flat pixel array: each span owns `width`
consecutive elements, in span order. -/
def chunks : List Span → List Int → List (Span × List Int)
  | [], _ => []
  | s :: ss, a => (s, a.take s.width.toNat) :: chunks ss (a.drop s.width.toNat)

/-- The contribution of one pair of spans with their pixel runs: the sum of
products over the overlapping column range when the rows match, zero
otherwise. -/
def pairOverlap (s : Span) (v : List Int) (t : Span) (w : List Int) : Int :=
  if s.y = t.y then
    overlapSum (v.drop ((max s.x0 t.x0) - s.x0).toNat)
      (w.drop ((max s.x0 t.x0) - t.x0).toNat)
      ((min s.x1 t.x1) + 1 - max s.x0 t.x0).toNat
  else 0

/-- Sum of `pairOverlap` over all pairs drawn from two chunk lists. -/
def dotCross (cs ds : List (Span × List Int)) : Int :=
  (cs.map (fun c => (ds.map (fun d => pairOverlap c.1 c.2 d.1 d.2)).sum)).sum

/-- Specification form of the dot product: the sum, over all pairs of spans
of the two footprints, of the products of image pixels at overlapping
columns of same-row spans. -/
def dotSpec (h1 h2 : HeavyBootprint) : Int :=
  dotCross (chunks h1.spans h1.image) (chunks h2.spans h2.image)

/-- Strict ordering between spans of a normalized span list: rows ascending;
within a row, disjoint spans in ascending column order. -/
def spanBefore (a b : Span) : Prop := a.y < b.y ∨ (a.y = b.y ∧ a.x1 < b.x0)

instance : DecidableRel spanBefore := fun a b => by
  unfold spanBefore
  infer_instance

/-- The `isNormalized` precondition asserted by `dot`: every span is
non-degenerate and the span list is strictly ordered by row then column,
non-overlapping within a row. -/
def Normalized (ss : List Span) : Prop :=
  (∀ s ∈ ss, s.x0 ≤ s.x1) ∧ ss.Pairwise spanBefore

instance (ss : List Span) : Decidable (Normalized ss) := by
  unfold Normalized
  infer_instance

/-- Total pixel count of a span list (`getNpix`/`getArea`): the sum of span
widths. -/
def area (ss : List Span) : Nat := (ss.map (fun s => s.width.toNat)).sum

theorem overlapSum_zero (a b : List Int) : overlapSum a b 0 = 0 := by
  cases a <;> cases b <;> rfl

theorem overlapSum_comm (n : Nat) : ∀ (a b : List Int),
    overlapSum a b n = overlapSum b a n := by
  induction n with
  | zero => intro a b; rw [overlapSum_zero, overlapSum_zero]
  | succ n ih =>
    intro a b
    cases a with
    | nil => cases b <;> rfl
    | cons x xs =>
      cases b with
      | nil => rfl
      | cons y ys =>
        show x * y + overlapSum xs ys n = y * x + overlapSum ys xs n
        rw [ih xs ys, Int.mul_comm]

theorem overlapSum_take_left (n : Nat) : ∀ (a b : List Int) (k : Nat), n ≤ k →
    overlapSum (a.take k) b n = overlapSum a b n := by
  induction n with
  | zero => intro a b k _; rw [overlapSum_zero, overlapSum_zero]
  | succ n ih =>
    intro a b k h
    cases a with
    | nil => rw [List.take_nil]
    | cons x xs =>
      cases k with
      | zero => omega
      | succ k =>
        rw [List.take_succ_cons]
        cases b with
        | nil => rfl
        | cons y ys =>
          show x * y + overlapSum (xs.take k) ys n = x * y + overlapSum xs ys n
          rw [ih xs ys k (by omega)]

theorem overlapSum_take_right (n : Nat) (a b : List Int) (k : Nat) (h : n ≤ k) :
    overlapSum a (b.take k) n = overlapSum a b n := by
  rw [overlapSum_comm, overlapSum_take_left n b a k h, overlapSum_comm]

theorem overlapSum_self (v : List Int) :
    overlapSum v v v.length = (v.map (fun x => x * x)).sum := by
  induction v with
  | nil => rfl
  | cons x xs ih =>
    show x * x + overlapSum xs xs xs.length = x * x + (xs.map (fun x => x * x)).sum
    rw [ih]

theorem pairOverlap_comm (s : Span) (v : List Int) (t : Span) (w : List Int) :
    pairOverlap s v t w = pairOverlap t w s v := by
  rw [pairOverlap, pairOverlap]
  by_cases h : s.y = t.y
  · rw [if_pos h, if_pos h.symm, max_comm t.x0 s.x0, min_comm t.x1 s.x1, overlapSum_comm]
  · rw [if_neg h, if_neg (fun h2 => h h2.symm)]

theorem pairOverlap_ne_row (s t : Span) (h : s.y ≠ t.y) (v w : List Int) :
    pairOverlap s v t w = 0 := by
  rw [pairOverlap, if_neg h]

theorem pairOverlap_of_before (s t : Span) (h : spanBefore s t) (v w : List Int) :
    pairOverlap s v t w = 0 ∧ pairOverlap t w s v = 0 := by
  rcases h with hy | ⟨hy, hx⟩
  · exact ⟨pairOverlap_ne_row s t (by omega) v w, pairOverlap_ne_row t s (by omega) w v⟩
  · have h1 : min s.x1 t.x1 ≤ s.x1 := min_le_left _ _
    have h2 : t.x0 ≤ max s.x0 t.x0 := le_max_right _ _
    have hcount : ((min s.x1 t.x1) + 1 - max s.x0 t.x0).toNat = 0 := by omega
    constructor
    · rw [pairOverlap, if_pos hy, hcount, overlapSum_zero]
    · rw [pairOverlap, if_pos hy.symm, max_comm t.x0 s.x0, min_comm t.x1 s.x1, hcount,
        overlapSum_zero]

theorem chunks_fst (ss : List Span) : ∀ a : List Int, (chunks ss a).map Prod.fst = ss := by
  induction ss with
  | nil => intro a; rfl
  | cons s ss ih =>
    intro a
    show s :: (chunks ss (a.drop s.width.toNat)).map Prod.fst = s :: ss
    rw [ih]

theorem chunks_mem_fst {ss : List Span} {a : List Int} {c : Span × List Int}
    (h : c ∈ chunks ss a) : c.1 ∈ ss := by
  rw [← chunks_fst ss a]
  exact List.mem_map_of_mem Prod.fst h

theorem sum_map_zero_of {α : Type} (cs : List α) (f : α → Int)
    (h : ∀ c ∈ cs, f c = 0) : (cs.map f).sum = 0 := by
  apply List.sum_eq_zero
  intro x hx
  rcases List.mem_map.mp hx with ⟨c, hc, he⟩
  rw [← he, h c hc]

theorem dotCross_nil_right (cs : List (Span × List Int)) : dotCross cs [] = 0 := by
  rw [dotCross]
  exact sum_map_zero_of cs _ (fun c _ => rfl)

theorem dotCross_cons_left (c : Span × List Int) (cs ds : List (Span × List Int)) :
    dotCross (c :: cs) ds =
      (ds.map (fun d => pairOverlap c.1 c.2 d.1 d.2)).sum + dotCross cs ds := rfl

theorem dotCross_cons_right (cs : List (Span × List Int)) (d : Span × List Int)
    (ds : List (Span × List Int)) :
    dotCross cs (d :: ds) =
      (cs.map (fun c => pairOverlap c.1 c.2 d.1 d.2)).sum + dotCross cs ds := by
  rw [dotCross, dotCross]
  have hstep : (cs.map (fun c => ((d :: ds).map (fun e => pairOverlap c.1 c.2 e.1 e.2)).sum)) =
      cs.map (fun c => pairOverlap c.1 c.2 d.1 d.2 +
        ((ds.map (fun e => pairOverlap c.1 c.2 e.1 e.2)).sum)) :=
    List.map_congr_left (fun c _ => rfl)
  rw [hstep, List.sum_map_add]

theorem sum_map_swap {α β : Type} (cs : List α) (ds : List β) (f : α → β → Int) :
    (cs.map (fun c => (ds.map (f c)).sum)).sum =
      (ds.map (fun d => (cs.map (fun c => f c d)).sum)).sum := by
  induction cs with
  | nil => exact (sum_map_zero_of ds _ (fun d _ => rfl)).symm
  | cons c cs ih =>
    show (ds.map (f c)).sum + (cs.map (fun c2 => (ds.map (f c2)).sum)).sum = _
    rw [ih]
    have hstep : (ds.map (fun d => ((c :: cs).map (fun c2 => f c2 d)).sum)) =
        ds.map (fun d => f c d + ((cs.map (fun c2 => f c2 d)).sum)) :=
      List.map_congr_left (fun d _ => rfl)
    rw [hstep, List.sum_map_add]

theorem dotCross_comm (cs ds : List (Span × List Int)) :
    dotCross cs ds = dotCross ds cs := by
  rw [dotCross, dotCross]
  rw [sum_map_swap cs ds (fun c d => pairOverlap c.1 c.2 d.1 d.2)]
  refine congrArg _ (List.map_congr_left ?_)
  intro d _
  refine congrArg _ (List.map_congr_left ?_)
  intro c _
  exact pairOverlap_comm c.1 c.2 d.1 d.2

theorem overlap_drop_eq_chunk (l r : Span) (la ra : List Int) (sum : Int)
    (hy : l.y = r.y) :
    (if max l.x0 r.x0 ≤ min l.x1 r.x1 then
        sum + overlapSum (la.drop (max l.x0 r.x0 - l.x0).toNat)
          (ra.drop (max l.x0 r.x0 - r.x0).toNat)
          (min l.x1 r.x1 + 1 - max l.x0 r.x0).toNat
      else sum) =
      sum + pairOverlap l (la.take l.width.toNat) r (ra.take r.width.toNat) := by
  rw [pairOverlap, if_pos hy]
  simp only [Span.width]
  have h1 : l.x0 ≤ max l.x0 r.x0 := le_max_left _ _
  have h2 : r.x0 ≤ max l.x0 r.x0 := le_max_right _ _
  have h3 : min l.x1 r.x1 ≤ l.x1 := min_le_left _ _
  have h4 : min l.x1 r.x1 ≤ r.x1 := min_le_right _ _
  by_cases hov : max l.x0 r.x0 ≤ min l.x1 r.x1
  · rw [if_pos hov]
    congr 1
    rw [List.drop_take, List.drop_take,
      overlapSum_take_left _ _ _ _ (by omega), overlapSum_take_right _ _ _ _ (by omega)]
  · rw [if_neg hov]
    rw [show (min l.x1 r.x1 + 1 - max l.x0 r.x0).toNat = 0 from by omega, overlapSum_zero]
    omega

/-- The merge loop computes exactly the pairwise-overlap sum of the
specification, for normalized span lists. -/
theorem dotGo_eq_dotCross (ls : List Span) (la : List Int) (rs : List Span)
    (ra : List Int) (sum : Int) (hl : Normalized ls) (hr : Normalized rs) :
    dotGo ls la rs ra sum = sum + dotCross (chunks ls la) (chunks rs ra) := by
  match ls, rs with
  | [], rs =>
    rw [dotGo.eq_def]
    show sum = sum + dotCross [] (chunks rs ra)
    rw [show dotCross [] (chunks rs ra) = 0 from rfl]
    omega
  | l :: lt, [] =>
    rw [dotGo.eq_def]
    show sum = sum + dotCross (chunks (l :: lt) la) []
    rw [dotCross_nil_right]
    omega
  | l :: lt, r :: rt =>
    obtain ⟨hlv, hlp⟩ := hl
    obtain ⟨hrv, hrp⟩ := hr
    rw [List.pairwise_cons] at hlp hrp
    have hl2 : Normalized lt := ⟨fun s hs => hlv s (List.mem_cons_of_mem _ hs), hlp.2⟩
    have hr2 : Normalized rt := ⟨fun s hs => hrv s (List.mem_cons_of_mem _ hs), hrp.2⟩
    have hlfull : Normalized (l :: lt) := ⟨hlv, List.pairwise_cons.mpr hlp⟩
    have hrfull : Normalized (r :: rt) := ⟨hrv, List.pairwise_cons.mpr hrp⟩
    rw [dotGo.eq_def]
    show (if l.y = r.y then
        (if l.x1 ≤ r.x1 then
          dotGo lt (la.drop l.width.toNat) (r :: rt) ra
            (if max l.x0 r.x0 ≤ min l.x1 r.x1 then
              sum + overlapSum (la.drop (max l.x0 r.x0 - l.x0).toNat)
                (ra.drop (max l.x0 r.x0 - r.x0).toNat)
                (min l.x1 r.x1 + 1 - max l.x0 r.x0).toNat
            else sum)
        else
          dotGo (l :: lt) la rt (ra.drop r.width.toNat)
            (if max l.x0 r.x0 ≤ min l.x1 r.x1 then
              sum + overlapSum (la.drop (max l.x0 r.x0 - l.x0).toNat)
                (ra.drop (max l.x0 r.x0 - r.x0).toNat)
                (min l.x1 r.x1 + 1 - max l.x0 r.x0).toNat
            else sum))
      else if l.y < r.y then dotGo lt (la.drop l.width.toNat) (r :: rt) ra sum
      else dotGo (l :: lt) la rt (ra.drop r.width.toNat) sum) =
        sum + dotCross (chunks (l :: lt) la) (chunks (r :: rt) ra)
    by_cases hy : l.y = r.y
    · rw [if_pos hy]
      rw [overlap_drop_eq_chunk l r la ra sum hy]
      by_cases hx : l.x1 ≤ r.x1
      · rw [if_pos hx]
        rw [dotGo_eq_dotCross lt (la.drop l.width.toNat) (r :: rt) ra _ hl2 hrfull]
        show sum + pairOverlap l (la.take l.width.toNat) r (ra.take r.width.toNat) +
            dotCross (chunks lt (la.drop l.width.toNat)) (chunks (r :: rt) ra) =
          sum + dotCross ((l, la.take l.width.toNat) :: chunks lt (la.drop l.width.toNat))
            ((r, ra.take r.width.toNat) :: chunks rt (ra.drop r.width.toNat))
        rw [dotCross_cons_left]
        have hinner : (((r, ra.take r.width.toNat) ::
            chunks rt (ra.drop r.width.toNat)).map
            (fun d => pairOverlap l (la.take l.width.toNat) d.1 d.2)).sum =
            pairOverlap l (la.take l.width.toNat) r (ra.take r.width.toNat) := by
          show pairOverlap l (la.take l.width.toNat) r (ra.take r.width.toNat) +
            ((chunks rt (ra.drop r.width.toNat)).map
              (fun d => pairOverlap l (la.take l.width.toNat) d.1 d.2)).sum = _
          rw [sum_map_zero_of _ _ ?hz1, add_zero]
          case hz1 =>
            intro d hd
            have hdr : d.1 ∈ rt := chunks_mem_fst hd
            rcases hrp.1 d.1 hdr with hby | ⟨hby, hbx⟩
            · exact pairOverlap_ne_row l d.1 (by omega) _ _
            · have hm1 : min l.x1 d.1.x1 ≤ l.x1 := min_le_left _ _
              have hm2 : d.1.x0 ≤ max l.x0 d.1.x0 := le_max_right _ _
              rw [pairOverlap, if_pos (by omega : l.y = d.1.y),
                show (min l.x1 d.1.x1 + 1 - max l.x0 d.1.x0).toNat = 0 from by omega]
              exact overlapSum_zero _ _
        rw [hinner,
          show chunks (r :: rt) ra =
            ((r, ra.take r.width.toNat) :: chunks rt (ra.drop r.width.toNat)) from rfl]
        omega
      · rw [if_neg hx]
        rw [dotGo_eq_dotCross (l :: lt) la rt (ra.drop r.width.toNat) _ hlfull hr2]
        show sum + pairOverlap l (la.take l.width.toNat) r (ra.take r.width.toNat) +
            dotCross (chunks (l :: lt) la) (chunks rt (ra.drop r.width.toNat)) =
          sum + dotCross ((l, la.take l.width.toNat) :: chunks lt (la.drop l.width.toNat))
            ((r, ra.take r.width.toNat) :: chunks rt (ra.drop r.width.toNat))
        rw [dotCross_cons_right]
        have hinner : (((l, la.take l.width.toNat) ::
            chunks lt (la.drop l.width.toNat)).map
            (fun c => pairOverlap c.1 c.2 r (ra.take r.width.toNat))).sum =
            pairOverlap l (la.take l.width.toNat) r (ra.take r.width.toNat) := by
          show pairOverlap l (la.take l.width.toNat) r (ra.take r.width.toNat) +
            ((chunks lt (la.drop l.width.toNat)).map
              (fun c => pairOverlap c.1 c.2 r (ra.take r.width.toNat))).sum = _
          rw [sum_map_zero_of _ _ ?hz2, add_zero]
          case hz2 =>
            intro c hc
            have hcl : c.1 ∈ lt := chunks_mem_fst hc
            rcases hlp.1 c.1 hcl with hby | ⟨hby, hbx⟩
            · exact pairOverlap_ne_row c.1 r (by omega) _ _
            · have hm1 : min c.1.x1 r.x1 ≤ r.x1 := min_le_right _ _
              have hm2 : c.1.x0 ≤ max c.1.x0 r.x0 := le_max_left _ _
              rw [pairOverlap, if_pos (by omega : c.1.y = r.y),
                show (min c.1.x1 r.x1 + 1 - max c.1.x0 r.x0).toNat = 0 from by omega]
              exact overlapSum_zero _ _
        rw [hinner,
          show chunks (l :: lt) la =
            ((l, la.take l.width.toNat) :: chunks lt (la.drop l.width.toNat)) from rfl]
        omega
    · rw [if_neg hy]
      by_cases hlt2 : l.y < r.y
      · rw [if_pos hlt2]
        rw [dotGo_eq_dotCross lt (la.drop l.width.toNat) (r :: rt) ra sum hl2 hrfull]
        show sum + dotCross (chunks lt (la.drop l.width.toNat)) (chunks (r :: rt) ra) =
          sum + dotCross ((l, la.take l.width.toNat) :: chunks lt (la.drop l.width.toNat))
            (chunks (r :: rt) ra)
        rw [dotCross_cons_left]
        have hz : ((chunks (r :: rt) ra).map
            (fun d => pairOverlap l (la.take l.width.toNat) d.1 d.2)).sum = 0 := by
          apply sum_map_zero_of
          intro d hd
          have hdm : d.1 ∈ r :: rt := chunks_mem_fst hd
          have hyge : r.y ≤ d.1.y := by
            rcases List.mem_cons.mp hdm with he | hm
            · exact le_of_eq (by rw [he])
            · rcases hrp.1 d.1 hm with h | ⟨h, _⟩ <;> omega
          exact pairOverlap_ne_row l d.1 (by omega) _ _
        rw [hz]
        omega
      · rw [if_neg hlt2]
        rw [dotGo_eq_dotCross (l :: lt) la rt (ra.drop r.width.toNat) sum hlfull hr2]
        show sum + dotCross (chunks (l :: lt) la) (chunks rt (ra.drop r.width.toNat)) =
          sum + dotCross (chunks (l :: lt) la)
            ((r, ra.take r.width.toNat) :: chunks rt (ra.drop r.width.toNat))
        rw [dotCross_cons_right]
        have hz : ((chunks (l :: lt) la).map
            (fun c => pairOverlap c.1 c.2 r (ra.take r.width.toNat))).sum = 0 := by
          apply sum_map_zero_of
          intro c hc
          have hcm : c.1 ∈ l :: lt := chunks_mem_fst hc
          have hyge : l.y ≤ c.1.y := by
            rcases List.mem_cons.mp hcm with he | hm
            · exact le_of_eq (by rw [he])
            · rcases hlp.1 c.1 hm with h | ⟨h, _⟩ <;> omega
          exact pairOverlap_ne_row c.1 r (by omega) _ _
        rw [hz]
        omega
termination_by ls.length + rs.length

theorem chunks_snd_len (ss : List Span) : ∀ (a : List Int), a.length = area ss →
    ∀ c ∈ chunks ss a, c.2.length = c.1.width.toNat := by
  induction ss with
  | nil => intro a _ c hc; cases hc
  | cons s ss ih =>
    intro a hlen c hc
    have harea : area (s :: ss) = s.width.toNat + area ss := rfl
    rcases List.mem_cons.mp hc with he | hm
    · rw [he]
      show (a.take s.width.toNat).length = s.width.toNat
      rw [List.length_take]
      omega
    · exact ih (a.drop s.width.toNat) (by rw [List.length_drop]; omega) c hm

theorem sum_squares_chunks (ss : List Span) : ∀ (a : List Int), a.length = area ss →
    ((chunks ss a).map (fun c => (c.2.map (fun x => x * x)).sum)).sum =
      (a.map (fun x => x * x)).sum := by
  induction ss with
  | nil =>
    intro a hlen
    have hnil : a = [] := List.eq_nil_of_length_eq_zero (by rw [hlen]; rfl)
    rw [hnil]
    rfl
  | cons s ss ih =>
    intro a hlen
    have harea : area (s :: ss) = s.width.toNat + area ss := rfl
    show ((a.take s.width.toNat).map (fun x => x * x)).sum +
        ((chunks ss (a.drop s.width.toNat)).map
          (fun c => (c.2.map (fun x => x * x)).sum)).sum =
      (a.map (fun x => x * x)).sum
    rw [ih (a.drop s.width.toNat) (by rw [List.length_drop]; omega)]
    conv_rhs => rw [← List.take_append_drop s.width.toNat a]
    rw [List.map_append, List.sum_append]

theorem chunks_pairwise (ss : List Span) (a : List Int) (h : ss.Pairwise spanBefore) :
    (chunks ss a).Pairwise (fun c d => spanBefore c.1 d.1) := by
  have h2 : ((chunks ss a).map Prod.fst).Pairwise spanBefore := by
    rw [chunks_fst]
    exact h
  exact List.pairwise_map.mp h2

theorem dotCross_self (cs : List (Span × List Int))
    (hpw : cs.Pairwise (fun c d => spanBefore c.1 d.1)) :
    dotCross cs cs = (cs.map (fun c => pairOverlap c.1 c.2 c.1 c.2)).sum := by
  induction cs with
  | nil => rfl
  | cons c cs ih =>
    rw [List.pairwise_cons] at hpw
    have h1 : (((c :: cs)).map (fun d => pairOverlap c.1 c.2 d.1 d.2)).sum =
        pairOverlap c.1 c.2 c.1 c.2 := by
      show pairOverlap c.1 c.2 c.1 c.2 +
        (cs.map (fun d => pairOverlap c.1 c.2 d.1 d.2)).sum = _
      rw [sum_map_zero_of _ _
        (fun d hd => (pairOverlap_of_before c.1 d.1 (hpw.1 d hd) c.2 d.2).1), add_zero]
    have h2 : (cs.map (fun e => pairOverlap e.1 e.2 c.1 c.2)).sum = 0 :=
      sum_map_zero_of _ _
        (fun e he => (pairOverlap_of_before c.1 e.1 (hpw.1 e he) c.2 e.2).2)
    rw [dotCross_cons_left, dotCross_cons_right, h1, h2, ih hpw.2]
    show pairOverlap c.1 c.2 c.1 c.2 + (0 + (cs.map _).sum) =
      pairOverlap c.1 c.2 c.1 c.2 + (cs.map _).sum
    omega

theorem pairOverlap_self (s : Span) (v : List Int) (hlen : v.length = s.width.toNat) :
    pairOverlap s v s v = (v.map (fun x => x * x)).sum := by
  have hw : s.width = s.x1 - s.x0 + 1 := rfl
  rw [pairOverlap, if_pos rfl, max_self, min_self,
    show (s.x0 - s.x0).toNat = 0 from by omega, List.drop_zero,
    show (s.x1 + 1 - s.x0).toNat = v.length from by omega]
  exact overlapSum_self v

/-- Two span lists are disjoint when no pair of same-row spans has
overlapping columns (no shared pixel). -/
def SpansDisjoint (ls rs : List Span) : Prop :=
  ∀ s ∈ ls, ∀ t ∈ rs, s.y = t.y → min s.x1 t.x1 < max s.x0 t.x0

theorem dotCross_disjoint (ls : List Span) (la : List Int) (rs : List Span)
    (ra : List Int) (h : SpansDisjoint ls rs) :
    dotCross (chunks ls la) (chunks rs ra) = 0 := by
  rw [dotCross]
  apply sum_map_zero_of
  intro c hc
  apply sum_map_zero_of
  intro d hd
  by_cases hy : c.1.y = d.1.y
  · have hlt := h c.1 (chunks_mem_fst hc) d.1 (chunks_mem_fst hd) hy
    rw [pairOverlap, if_pos hy,
      show (min c.1.x1 d.1.x1 + 1 - max c.1.x0 d.1.x0).toNat = 0 from by omega]
    exact overlapSum_zero _ _
  · exact pairOverlap_ne_row _ _ hy _ _

/-- Claim C7: for heavy footprints with normalized span lists, `dot` equals
the pairwise-overlap sum over same-row spans of the image arrays (locality);
it is symmetric; the self dot product is the sum of squares of the image
pixels (when the image array matches the pixel count, the heavy-footprint
invariant); disjoint spans give zero; and the mask and variance arrays never
contribute. -/
theorem C7_dot_properties (h1 h2 h : HeavyBootprint)
    (n1 : Normalized h1.spans) (n2 : Normalized h2.spans) (nh : Normalized h.spans)
    (hlen : h.image.length = area h.spans) :
    HeavyBootprint.dot h1 h2 = dotSpec h1 h2 ∧
    HeavyBootprint.dot h1 h2 = HeavyBootprint.dot h2 h1 ∧
    HeavyBootprint.dot h h = (h.image.map (fun x => x * x)).sum ∧
    (SpansDisjoint h1.spans h2.spans → HeavyBootprint.dot h1 h2 = 0) ∧
    (∀ m1 v1 m2 v2 : List Int,
      HeavyBootprint.dot ⟨h1.spans, h1.image, m1, v1⟩ ⟨h2.spans, h2.image, m2, v2⟩ =
        HeavyBootprint.dot h1 h2) := by
  have he12 : HeavyBootprint.dot h1 h2 = dotSpec h1 h2 := by
    rw [HeavyBootprint.dot, dotGo_eq_dotCross _ _ _ _ 0 n1 n2, dotSpec]
    omega
  have he21 : HeavyBootprint.dot h2 h1 = dotSpec h2 h1 := by
    rw [HeavyBootprint.dot, dotGo_eq_dotCross _ _ _ _ 0 n2 n1, dotSpec]
    omega
  refine ⟨he12, ?_, ?_, ?_, ?_⟩
  · rw [he12, he21, dotSpec, dotSpec, dotCross_comm]
  · have heh : HeavyBootprint.dot h h = dotSpec h h := by
      rw [HeavyBootprint.dot, dotGo_eq_dotCross _ _ _ _ 0 nh nh, dotSpec]
      omega
    rw [heh, dotSpec, dotCross_self _ (chunks_pairwise _ _ nh.2)]
    have hdiag : ((chunks h.spans h.image).map
        (fun c => pairOverlap c.1 c.2 c.1 c.2)).sum =
        ((chunks h.spans h.image).map (fun c => (c.2.map (fun x => x * x)).sum)).sum := by
      apply congrArg
      apply List.map_congr_left
      intro c hc
      exact pairOverlap_self c.1 c.2 (chunks_snd_len h.spans h.image hlen c hc)
    rw [hdiag, sum_squares_chunks h.spans h.image hlen]
  · intro hdisj
    rw [he12, dotSpec, dotCross_disjoint _ _ _ _ hdisj]
  · intro m1 v1 m2 v2
    rfl

/-- Witness for C7: a two-span heavy footprint against a one-span one —
symmetry holds, the self dot product is `1+4+9+16 = 30`, and the overlap dot
product evaluates to `2·10 + 3·20 = 80` through the pairwise form. -/
theorem C7_dot_properties_witness :
    HeavyBootprint.dot ⟨[⟨0, 0, 2⟩, ⟨1, 0, 0⟩], [1, 2, 3, 4], [9], [8]⟩
        ⟨[⟨0, 1, 3⟩], [10, 20, 30], [], []⟩ =
      HeavyBootprint.dot ⟨[⟨0, 1, 3⟩], [10, 20, 30], [], []⟩
        ⟨[⟨0, 0, 2⟩, ⟨1, 0, 0⟩], [1, 2, 3, 4], [9], [8]⟩ ∧
    HeavyBootprint.dot ⟨[⟨0, 0, 2⟩, ⟨1, 0, 0⟩], [1, 2, 3, 4], [9], [8]⟩
        ⟨[⟨0, 0, 2⟩, ⟨1, 0, 0⟩], [1, 2, 3, 4], [9], [8]⟩ = 30 ∧
    HeavyBootprint.dot ⟨[⟨0, 0, 2⟩, ⟨1, 0, 0⟩], [1, 2, 3, 4], [9], [8]⟩
        ⟨[⟨0, 1, 3⟩], [10, 20, 30], [], []⟩ = 80 := by
  have h := C7_dot_properties
    ⟨[⟨0, 0, 2⟩, ⟨1, 0, 0⟩], [1, 2, 3, 4], [9], [8]⟩
    ⟨[⟨0, 1, 3⟩], [10, 20, 30], [], []⟩
    ⟨[⟨0, 0, 2⟩, ⟨1, 0, 0⟩], [1, 2, 3, 4], [9], [8]⟩
    (by decide) (by decide) (by decide) (by decide)
  refine ⟨h.2.1, ?_, ?_⟩
  · rw [h.2.2.1]
    decide
  · rw [h.1]
    decide

end AfwProof
